import Mathlib

set_option maxHeartbeats 1000000

/-!
Verification development for the emoji-cheat-sheet fetch script
(src/scripts/fetch.js).  The script downloads GitHub's shortcode → image-url
map and the Unicode full-emoji-list text, and categorizes the shortcodes into
the Unicode category/subcategory taxonomy.

Modelling conventions:
* JavaScript strings that hold emoji literals are modelled as their UTF-16
  code-unit sequences (`List Nat`); code points above 0xFFFF are stored as a
  surrogate pair, exactly as JS string equality and the character-class regex
  at fetch.js line 103 see them.
* JavaScript plain objects are modelled as insertion-ordered association
  lists.  Property read is `jsGet` (first matching key), property write is
  `jsSet` (update in place, else append).  `Object.entries` enumeration
  reorders array-index-like keys first in ascending numeric order; this is
  `jsEntriesOrder` and is applied where the script enumerates an object it
  built itself (fetch.js line 135).  Prototype-chain artifacts (keys such as
  "toString") are outside the model.
* Reading a missing property yields `undefined`; using it as a property key
  coerces it to the string "undefined", and reading a property of `undefined`
  itself throws a TypeError.  The thrown TypeError is `Err.typeErr`.
* The identifier-source input of `categorize` is the decoded
  `githubEmojiIdMap` in its `Object.entries` enumeration order (fetch.js
  line 68), as a list of (identifier, literal-or-platform-ref) pairs.
-/

namespace Fetch

/-- JS object property read: the value at the first entry whose key matches. -/
def jsGet {κ α : Type} [DecidableEq κ] : List (κ × α) → κ → Option α
  | [], _ => none
  | (k, v) :: t, k0 => if k0 = k then some v else jsGet t k0

/-- JS object property write: update the first matching entry in place,
otherwise append a new entry (insertion order of JS objects). -/
def jsSet {κ α : Type} [DecidableEq κ] : List (κ × α) → κ → α → List (κ × α)
  | [], k0, v0 => [(k0, v0)]
  | (k, v) :: t, k0, v0 => if k0 = k then (k, v0) :: t else (k, v) :: jsSet t k0 v0

/-- Model of the JS idiom `if (!m[k]) m[k] = []; m[k].push(v)`
(fetch.js lines 71-74 and 78-81). -/
def jsPush {κ α : Type} [DecidableEq κ] : List (κ × List α) → κ → α → List (κ × List α)
  | [], k0, v0 => [(k0, [v0])]
  | (k, l) :: t, k0, v0 => if k0 = k then (k, l ++ [v0]) :: t else (k, l) :: jsPush t k0 v0

/-- Keys of a modelled JS object, in entry order. -/
def keysOf {κ α : Type} (m : List (κ × α)) : List κ := m.map Prod.fst

/-- Digit-string value in base 10. -/
def digitsVal (l : List Char) : Nat := l.foldl (fun a c => a * 10 + (c.toNat - 48)) 0

/-- Whether a JS property key is an array index: the canonical decimal form of
an integer below 2^32 - 1.  Such keys are enumerated first, in ascending
numeric order, by `Object.entries`. -/
def isArrayIndex (s : String) : Bool :=
  match s.data with
  | [] => false
  | c :: rest =>
    (c :: rest).all Char.isDigit && (c != '0' || rest.isEmpty) &&
      digitsVal (c :: rest) < 4294967295

/-- Insert into a list sorted by the numeric measure `f` (ascending). -/
def insertByVal {α : Type} (f : α → Nat) (x : α) : List α → List α
  | [] => [x]
  | y :: t => if f x ≤ f y then x :: y :: t else y :: insertByVal f x t

/-- Insertion sort by the numeric measure `f` (ascending). -/
def sortByVal {α : Type} (f : α → Nat) : List α → List α
  | [] => []
  | x :: t => insertByVal f x (sortByVal f t)

/-- `Object.entries` enumeration order of a modelled JS object: array-index
keys first in ascending numeric order, then the remaining keys in insertion
order. -/
def jsEntriesOrder {α : Type} (m : List (String × α)) : List (String × α) :=
  sortByVal (fun p => digitsVal p.1.data) (m.filter fun p => isArrayIndex p.1) ++
    m.filter fun p => !isArrayIndex p.1

/-- JS whitespace class `\s`: the characters matched by the regex
`/\s/` (used through `\s+` in `toTitleCase`). -/
def isJsWs (c : Char) : Bool :=
  let n := c.toNat
  (9 ≤ n && n ≤ 13) || n == 32 || n == 0xA0 || n == 0x1680 ||
  (0x2000 ≤ n && n ≤ 0x200A) || n == 0x2028 || n == 0x2029 ||
  n == 0x202F || n == 0x205F || n == 0x3000 || n == 0xFEFF

/-- ASCII letter, the class `[a-zA-Z]` of fetch.js line 150. -/
def isAsciiAlpha (c : Char) : Bool :=
  (65 ≤ c.toNat && c.toNat ≤ 90) || (97 ≤ c.toNat && c.toNat ≤ 122)

/-- `toUpperCase` on a single ASCII letter. -/
def upChar (c : Char) : Char :=
  if 97 ≤ c.toNat && c.toNat ≤ 122 then Char.ofNat (c.toNat - 32) else c

/-- Model of `.replace(/\s+/g, " ")`: every maximal run of JS whitespace
becomes a single space.  The flag records whether the previous character was
whitespace (so the run already emitted its space). -/
def collapseWsAux : Bool → List Char → List Char
  | _, [] => []
  | prevWs, c :: t =>
    if isJsWs c then
      (if prevWs then collapseWsAux true t else ' ' :: collapseWsAux true t)
    else c :: collapseWsAux false t

/-- Model of `.replace(/\s+/g, " ")`. -/
def collapseWs (l : List Char) : List Char := collapseWsAux false l

/-- Model of `.replace(/[a-zA-Z]+/g, w => w[0].toUpperCase() + w.slice(1))`:
upper-case the first character of each maximal ASCII-letter run.  The flag
records whether the previous character was a letter. -/
def upRuns : Bool → List Char → List Char
  | _, [] => []
  | prevAlpha, c :: t =>
    if isAsciiAlpha c then
      (if prevAlpha then c else upChar c) :: upRuns true t
    else c :: upRuns false t

/-- fetch.js lines 146-151: `toTitleCase`. -/
def toTitleCase (s : String) : String :=
  String.mk (upRuns false (collapseWs (s.data.map fun c => if c = '-' then ' ' else c)))

/-- The normalization of fetch.js line 103:
`value.replace(/[︀-️‍]/g, "")` on a UTF-16 code-unit
sequence (variation selectors and the zero-width joiner are BMP units). -/
def stripKey (l : List Nat) : List Nat :=
  l.filter fun n => !((0xFE00 ≤ n && n ≤ 0xFE0F) || n == 0x200D)

/-- The decoded value of one `githubEmojiIdMap` entry: either an emoji
literal (UTF-16 code units) or the basename marker array for a
GitHub-specific emoji (fetch.js lines 18-29). -/
inductive Lit : Type
  | uni (units : List Nat)
  | custom (key : String)
deriving DecidableEq, Repr

/-- One record of the taxonomy iterator (fetch.js lines 42-60). -/
inductive Rec : Type
  | category (title : String)
  | subcategory (title : String)
  | emoji (units : List Nat)
deriving DecidableEq, Repr

/-- Failures of `getCategorizeGithubEmojiIds`: a JS TypeError from using a
missing taxonomy bucket, or the explicit uncategorized-emojis error of
fetch.js line 119. -/
inductive Err : Type
  | typeErr
  | uncategorized
deriving DecidableEq, Repr

/-- The entries of the identifier map that carry a Unicode literal: exactly
the contents of `githubEmojiIdMap` after the partition loop (line 75 deleted
the platform-specific ones), in enumeration order. -/
def uniPart : List (String × Lit) → List (String × List Nat)
  | [] => []
  | (i, Lit.uni l) :: t => (i, l) :: uniPart t
  | (_, Lit.custom _) :: t => uniPart t

/-- The platform-specific entries, as (identifier, grouping-key) pairs. -/
def customPart : List (String × Lit) → List (String × String)
  | [] => []
  | (_, Lit.uni _) :: t => customPart t
  | (i, Lit.custom k) :: t => (i, k) :: customPart t

/-- Fold `jsPush` over (value, key) pairs: the bucket-building loop shape of
fetch.js lines 68-82. -/
def pushFold {κ : Type} [DecidableEq κ] (m : List (κ × List String)) :
    List (String × κ) → List (κ × List String)
  | [] => m
  | (v, k) :: t => pushFold (jsPush m k v) t

/-- Partition (a): `emojiLiteralToGithubEmojiIdsMap`, keyed by the raw
literal (fetch.js lines 78-81). -/
def buildPA (entries : List (String × Lit)) : List (List Nat × List String) :=
  pushFold [] (uniPart entries)

/-- Partition (b): `githubSpecificEmojiUriToGithubEmojiIdsMap`, keyed by the
stripped basename (fetch.js lines 70-74). -/
def buildPB (entries : List (String × Lit)) : List (String × List String) :=
  pushFold [] (customPart entries)

/-- The taxonomy object: category title → subcategory title → list of
identifier groups. -/
abbrev TaxM := List (String × List (String × List (List String)))

/-- The mutable state of the taxonomy walk: the context stack
`categoryStack`, the object `categorizedEmojiIds`, and the shrinking
coverage map `githubEmojiIdMap`. -/
structure St : Type where
  stack : List String
  tax : TaxM
  rem : List (String × List Nat)
deriving DecidableEq, Repr

/-- One iteration of the walk loop (fetch.js lines 86-117). -/
def walkStep (pa : List (List Nat × List String)) (σ : St) : Rec → Except Err St
  | Rec.category t =>
    let title := toTitleCase t
    Except.ok ⟨[title], jsSet σ.tax title [], σ.rem⟩
  | Rec.subcategory t =>
    let title := toTitleCase t
    let st1 := if σ.stack.length > 1 then σ.stack.dropLast else σ.stack
    let stack2 := st1 ++ [title]
    let cKey := (stack2.get? 0).getD "undefined"
    match jsGet σ.tax cKey with
    | none => Except.error Err.typeErr
    | some sm => Except.ok ⟨stack2, jsSet σ.tax cKey (jsSet sm title []), σ.rem⟩
  | Rec.emoji v =>
    let key := stripKey v
    match jsGet pa key with
    | none => Except.ok σ
    | some g =>
      let cKey := (σ.stack.get? 0).getD "undefined"
      let sKey := (σ.stack.get? 1).getD "undefined"
      match jsGet σ.tax cKey with
      | none => Except.error Err.typeErr
      | some sm =>
        match jsGet sm sKey with
        | none => Except.error Err.typeErr
        | some lst =>
          Except.ok ⟨σ.stack, jsSet σ.tax cKey (jsSet sm sKey (lst ++ [g])),
            σ.rem.filter fun p => decide (p.1 ∉ g)⟩

/-- The full walk over the record stream. -/
def walk (pa : List (List Nat × List String)) (σ : St) : List Rec → Except Err St
  | [] => Except.ok σ
  | r :: rs =>
    match walkStep pa σ r with
    | Except.error e => Except.error e
    | Except.ok σ2 => walk pa σ2 rs

/-- The pruning pass of fetch.js lines 121-132: drop empty subcategory
lists, then drop categories whose subcategory map became empty. -/
def prune (t : TaxM) : TaxM :=
  (t.map fun p => (p.1, p.2.filter fun q => !q.2.isEmpty)).filter fun p => !p.2.isEmpty

/-- fetch.js lines 62-141: `getCategorizeGithubEmojiIds`, given the decoded
identifier map (in enumeration order) and the taxonomy record stream. -/
def categorize (entries : List (String × Lit)) (rs : List Rec) : Except Err TaxM :=
  let pa := buildPA entries
  let pb := buildPB entries
  match walk pa ⟨[], [], uniPart entries⟩ rs with
  | Except.error e => Except.error e
  | Except.ok σf =>
    if σf.rem.isEmpty then
      let pruned := prune σf.tax
      Except.ok (if pb.isEmpty then pruned
        else jsSet pruned "GitHub Custom Emoji" [("", (jsEntriesOrder pb).map Prod.snd)])
    else Except.error Err.uncategorized

/-- All identifiers appearing in identifier groups of a taxonomy object. -/
def taxIds (t : TaxM) : List String :=
  t.flatMap fun p => p.2.flatMap fun q => q.2.flatten

/-- List prefix test on characters. -/
def isPrefixL : List Char → List Char → Bool
  | [], _ => true
  | _ :: _, [] => false
  | a :: s, b :: t => a == b && isPrefixL s t

/-- JS `String.prototype.split` with a single-character separator. -/
def splitC (c : Char) : List Char → List (List Char)
  | [] => [[]]
  | x :: t =>
    if x = c then [] :: splitC c t
    else
      match splitC c t with
      | [] => [[x]]
      | h :: r => (x :: h) :: r

/-- JS `String.prototype.split` with the (nonempty) separator `c :: cs`,
scanning helper: when the skip counter is positive, that many characters
still belong to an already-matched separator occurrence and are dropped. -/
def splitSkip (c : Char) (cs : List Char) : Nat → List Char → List (List Char)
  | _ + 1, [] => [[]]
  | n + 1, _ :: t => splitSkip c cs n t
  | 0, [] => [[]]
  | 0, x :: t =>
    if isPrefixL (c :: cs) (x :: t) then [] :: splitSkip c cs cs.length t
    else
      match splitSkip c cs 0 t with
      | [] => [[x]]
      | h :: r => (x :: h) :: r

/-- JS `String.prototype.split` with the (nonempty) separator `c :: cs`. -/
def splitSeq (c : Char) (cs : List Char) (l : List Char) : List (List Char) :=
  splitSkip c cs 0 l

/-- JS `String.prototype.includes` with the (nonempty) pattern `c :: cs`. -/
def containsSeq (c : Char) (cs : List Char) : List Char → Bool
  | [] => false
  | x :: t => isPrefixL (c :: cs) (x :: t) || containsSeq c cs t

/-- Hex digit, the digits accepted by `parseInt(_, 16)`: 0-9, a-f, A-F. -/
def isHexDigit (c : Char) : Bool :=
  (48 ≤ c.toNat && c.toNat ≤ 57) || (97 ≤ c.toNat && c.toNat ≤ 102) ||
    (65 ≤ c.toNat && c.toNat ≤ 70)

/-- Value of a hex digit. -/
def hexDigitVal (c : Char) : Nat :=
  if 48 ≤ c.toNat && c.toNat ≤ 57 then c.toNat - 48
  else if 97 ≤ c.toNat then c.toNat - 87 else c.toNat - 55

/-- Value of a hex digit string (most significant first). -/
def hexAcc (l : List Char) : Nat := l.foldl (fun a c => a * 16 + hexDigitVal c) 0

/-- Unsigned part of `parseInt(s, 16)`: optional 0x/0X prefix, then the
maximal leading run of hex digits; none means NaN. -/
def parseIntHexCore (l1 : List Char) : Option Nat :=
  let l2 := if isPrefixL ['0', 'x'] l1 || isPrefixL ['0', 'X'] l1 then l1.drop 2 else l1
  let digs := l2.takeWhile isHexDigit
  if digs.isEmpty then none else some (hexAcc digs)

/-- `Number.parseInt(s, 16)`: leading whitespace skipped, optional sign,
optional 0x prefix, maximal hex-digit run; `none` models NaN. -/
def jsParseInt16 (l : List Char) : Option Int :=
  let l1 := l.dropWhile isJsWs
  match l1 with
  | '-' :: r => (parseIntHexCore r).map fun n => -(n : Int)
  | '+' :: r => (parseIntHexCore r).map fun n => (n : Int)
  | _ => (parseIntHexCore l1).map fun n => (n : Int)

/-- `String.fromCodePoint` for one code point, as UTF-16 code units;
`none` models the RangeError on values outside 0..0x10FFFF. -/
def cpUnits (n : Int) : Option (List Nat) :=
  if n < 0 || n > 0x10FFFF then none
  else
    let m := n.toNat
    if m < 0x10000 then some [m]
    else some [0xD800 + (m - 0x10000) / 0x400, 0xDC00 + (m - 0x10000) % 0x400]

/-- Trailing path component: `getLast(url.split("/"))` (fetch.js line 21). -/
def lastComp (l : List Char) : List Char := (splitC '/' l).getLastD []

/-- Strip the `.png` extension: `s.split(".png")[0]` (fetch.js line 22). -/
def stripPng (l : List Char) : List Char := (splitSeq '.' ['p', 'n', 'g'] l).headD []

/-- fetch.js lines 18-29: decode one image url of the identifier source into
a Unicode literal or a platform-specific marker; `none` models a thrown
RangeError from `String.fromCodePoint`. -/
def decodeUrl (url : String) : Option Lit :=
  let cs := url.data
  if containsSeq '/' ['u', 'n', 'i', 'c', 'o', 'd', 'e', '/'] cs then
    let base := stripPng (lastComp cs)
    let pieces := splitC '-' base
    (pieces.mapM fun p => (jsParseInt16 p).bind cpUnits).map fun us => Lit.uni us.flatten
  else some (Lit.custom (String.mk (stripPng (lastComp cs))))

/-- The identifiers among (value, key) pairs that carry the key `k`,
in order. -/
def valsOf {κ : Type} [DecidableEq κ] (ps : List (String × κ)) (k : κ) : List String :=
  (ps.filter fun p => decide (p.2 = k)).map Prod.fst

/-- Keys not yet seen, each kept at its first occurrence. -/
def newKeys {κ : Type} [DecidableEq κ] : List κ → List κ → List κ
  | _, [] => []
  | seen, k :: t => if k ∈ seen then newKeys seen t else k :: newKeys (k :: seen) t

/-- Each key of the list at its first occurrence, in order of first
occurrence. -/
def firstKeys {κ : Type} [DecidableEq κ] (ks : List κ) : List κ := newKeys [] ks

/-- Pieces joined with a single separator character between them
(the shape produced by hex groups joined by hyphens in an asset
filename). -/
def joinSep (c : Char) : List (List Char) → List Char
  | [] => []
  | [x] => x
  | x :: y :: t => x ++ c :: joinSep c (y :: t)

/-- The characters of the path segment "/unicode/". -/
def unicodeSeg : List Char := ['/', 'u', 'n', 'i', 'c', 'o', 'd', 'e', '/']

/-- UTF-16 code units of one code point (assumed at most 0x10FFFF). -/
def surrogateUnits (m : Nat) : List Nat :=
  if m < 0x10000 then [m]
  else [0xD800 + (m - 0x10000) / 0x400, 0xDC00 + (m - 0x10000) % 0x400]

/-- Whether a taxonomy record is a Category record. -/
def isCategoryRec : Rec → Bool
  | Rec.category _ => true
  | _ => false

/-- Whether a taxonomy record is an Emoji record. -/
def isEmojiRec : Rec → Bool
  | Rec.emoji _ => true
  | _ => false

/-- The title-cased titles of the Category records of a stream, in order. -/
def catTitles (rs : List Rec) : List String :=
  rs.filterMap fun r => match r with
    | Rec.category t => some (toTitleCase t)
    | _ => none

/-- The title-cased titles of the Subcategory records of a stream. -/
def subTitles (rs : List Rec) : List String :=
  rs.filterMap fun r => match r with
    | Rec.subcategory t => some (toTitleCase t)
    | _ => none

/-- The normalized keys of the Emoji records of a stream, in order. -/
def emojiKeys (rs : List Rec) : List (List Nat) :=
  rs.filterMap fun r => match r with
    | Rec.emoji v => some (stripKey v)
    | _ => none

/-- Invariant of the taxonomy walk after processing the prefix `p` of the
record stream: every category key of the taxonomy object comes from a
processed Category record, every subcategory key from a processed
Subcategory record, the identifiers placed in the taxonomy plus the
identifiers still in the coverage map are exactly the literal-mapped input
identifiers (as a multiset), and the coverage map holds exactly the
literal-mapped entries whose raw literal is not a processed emoji key. -/
def WInv (entries : List (String × Lit)) (p : List Rec) (σ : St) : Prop :=
  (∀ c ∈ keysOf σ.tax, c ∈ catTitles p) ∧
  (∀ pp ∈ σ.tax, ∀ s ∈ keysOf pp.2, s ∈ subTitles p) ∧
  (taxIds σ.tax : Multiset String) + ((σ.rem.map Prod.fst : List String) : Multiset String)
    = (((uniPart entries).map Prod.fst : List String) : Multiset String) ∧
  σ.rem = (uniPart entries).filter fun e => decide (e.2 ∉ emojiKeys p)

/-- No two adjacent characters are both JS whitespace. -/
def spacedOk : List Char → Bool
  | [] => true
  | [_] => true
  | a :: b :: t => !(isJsWs a && isJsWs b) && spacedOk (b :: t)

/-- Whether the first character of a list is JS whitespace. -/
def headWs : List Char → Bool
  | [] => false
  | c :: _ => isJsWs c

/-- The character emitted by one step of `upRuns`. -/
def upStep (b : Bool) (c : Char) : Char :=
  if isAsciiAlpha c then (if b then c else upChar c) else c

/-- Every maximal ASCII-letter run starts with an upper-case letter; the
flag records whether the previous character was a letter. -/
def runStartsUpper : Bool → List Char → Bool
  | _, [] => true
  | prev, c :: t =>
    if isAsciiAlpha c then
      (prev || (65 ≤ c.toNat && c.toNat ≤ 90)) && runStartsUpper true t
    else runStartsUpper false t

end Fetch

namespace Fetch

open scoped List

variable {κ α β : Type} [DecidableEq κ]

theorem jsGet_jsSet (m : List (κ × α)) (k k2 : κ) (v : α) :
    jsGet (jsSet m k v) k2 = if k2 = k then some v else jsGet m k2 := by
  induction m with
  | nil => by_cases h : k2 = k <;> simp [jsSet, jsGet, h]
  | cons p t ih =>
    obtain ⟨k1, v1⟩ := p
    by_cases h1 : k = k1
    · subst h1
      by_cases h2 : k2 = k <;> simp [jsSet, jsGet, h2]
    · by_cases h2 : k2 = k1
      · subst h2
        have h3 : ¬ k2 = k := fun h => h1 h.symm
        simp [jsSet, jsGet, h1, h3, Ne.symm h1]
      · simp [jsSet, jsGet, h1, h2, ih]

theorem jsGet_eq_none_iff (m : List (κ × α)) (k : κ) :
    jsGet m k = none ↔ k ∉ keysOf m := by
  induction m with
  | nil => simp [jsGet, keysOf]
  | cons p t ih =>
    obtain ⟨k1, v1⟩ := p
    by_cases h : k = k1 <;> simp [jsGet, keysOf, h, ih] <;> simp [keysOf] at ih <;>
      simp [ih]

theorem jsSet_of_not_mem (m : List (κ × α)) (k : κ) (v : α) (h : k ∉ keysOf m) :
    jsSet m k v = m ++ [(k, v)] := by
  induction m with
  | nil => simp [jsSet]
  | cons p t ih =>
    obtain ⟨k1, v1⟩ := p
    simp [keysOf] at h
    simp [jsSet, h.1, ih (by simp [keysOf, h.2])]

theorem mem_jsSet (m : List (κ × α)) (k : κ) (v : α) (x : κ × α)
    (hx : x ∈ jsSet m k v) : x = (k, v) ∨ x ∈ m := by
  induction m with
  | nil => simp [jsSet] at hx; simp [hx]
  | cons p t ih =>
    obtain ⟨k1, v1⟩ := p
    by_cases h : k = k1
    · subst h
      simp [jsSet] at hx
      rcases hx with h | h
      · exact Or.inl (by simp [h])
      · exact Or.inr (by simp [h])
    · simp [jsSet, h] at hx
      rcases hx with h2 | h2
      · exact Or.inr (by simp [h2])
      · rcases ih h2 with h3 | h3
        · exact Or.inl h3
        · exact Or.inr (by simp [h3])

theorem keysOf_jsSet (m : List (κ × α)) (k : κ) (v : α) :
    keysOf (jsSet m k v) = if k ∈ keysOf m then keysOf m else keysOf m ++ [k] := by
  induction m with
  | nil => simp [jsSet, keysOf]
  | cons p t ih =>
    obtain ⟨k1, v1⟩ := p
    by_cases h : k = k1
    · subst h; simp [jsSet, keysOf]
    · simp only [jsSet, if_neg h, keysOf, List.map_cons] at *
      by_cases h3 : k ∈ List.map Prod.fst t
      · rw [if_pos h3] at ih
        rw [if_pos (by simp [h3]), ih]
      · rw [if_neg h3] at ih
        rw [if_neg (by simp [h, h3]), ih]
        simp

theorem flatMap_jsSet_subset (m : List (κ × α)) (k : κ) (b : α) (f : α → List β)
    (x : β) (hx : x ∈ (jsSet m k b).flatMap fun p => f p.2) :
    x ∈ f b ∨ x ∈ m.flatMap fun p => f p.2 := by
  rw [List.mem_flatMap] at hx
  obtain ⟨p, hp, hxp⟩ := hx
  rcases mem_jsSet m k b p hp with h | h
  · subst h; exact Or.inl hxp
  · exact Or.inr (List.mem_flatMap.mpr ⟨p, h, hxp⟩)

theorem flatMap_jsSet_perm (m : List (κ × α)) (k : κ) (a b : α) (f : α → List β)
    (h : jsGet m k = some a) :
    List.Perm (((jsSet m k b).flatMap fun p => f p.2) ++ f a)
      (f b ++ m.flatMap fun p => f p.2) := by
  induction m with
  | nil => simp [jsGet] at h
  | cons p t ih =>
    obtain ⟨k1, v1⟩ := p
    by_cases hk : k = k1
    · have hv : v1 = a := by simpa [jsGet, hk] using h
      subst hv
      simp only [jsSet, if_pos hk, List.flatMap_cons]
      calc ((f b ++ t.flatMap fun p => f p.2) ++ f v1)
          = f b ++ ((t.flatMap fun p => f p.2) ++ f v1) := by
            rw [List.append_assoc]
        _ ~ f b ++ (f v1 ++ t.flatMap fun p => f p.2) :=
            List.Perm.append_left _ List.perm_append_comm
    · have h2 : jsGet t k = some a := by simpa [jsGet, hk] using h
      simp only [jsSet, if_neg hk, List.flatMap_cons]
      calc ((f v1 ++ (jsSet t k b).flatMap fun p => f p.2) ++ f a)
          = f v1 ++ (((jsSet t k b).flatMap fun p => f p.2) ++ f a) := by
            rw [List.append_assoc]
        _ ~ f v1 ++ (f b ++ t.flatMap fun p => f p.2) :=
            List.Perm.append_left _ (ih h2)
        _ = (f v1 ++ f b) ++ t.flatMap fun p => f p.2 := by
            rw [List.append_assoc]
        _ ~ (f b ++ f v1) ++ t.flatMap fun p => f p.2 :=
            List.Perm.append_right _ List.perm_append_comm
        _ = f b ++ (f v1 ++ t.flatMap fun p => f p.2) := by
            rw [List.append_assoc]

theorem jsGet_jsPush (m : List (κ × List α)) (k k2 : κ) (v : α) :
    jsGet (jsPush m k v) k2 =
      if k2 = k then some ((jsGet m k).getD [] ++ [v]) else jsGet m k2 := by
  induction m with
  | nil => by_cases h : k2 = k <;> simp [jsPush, jsGet, h]
  | cons p t ih =>
    obtain ⟨k1, v1⟩ := p
    by_cases h1 : k = k1
    · subst h1
      by_cases h2 : k2 = k <;> simp [jsPush, jsGet, h2]
    · by_cases h2 : k2 = k1
      · subst h2
        have h3 : ¬ k2 = k := fun h => h1 h.symm
        simp [jsPush, jsGet, h1, h3]
      · simp [jsPush, jsGet, h1, h2, ih]

theorem keysOf_jsPush (m : List (κ × List α)) (k : κ) (v : α) :
    keysOf (jsPush m k v) = if k ∈ keysOf m then keysOf m else keysOf m ++ [k] := by
  induction m with
  | nil => simp [jsPush, keysOf]
  | cons p t ih =>
    obtain ⟨k1, v1⟩ := p
    by_cases h : k = k1
    · subst h; simp [jsPush, keysOf]
    · simp only [jsPush, if_neg h, keysOf, List.map_cons] at *
      by_cases h3 : k ∈ List.map Prod.fst t
      · rw [if_pos h3] at ih
        rw [if_pos (by simp [h3]), ih]
      · rw [if_neg h3] at ih
        rw [if_neg (by simp [h, h3]), ih]
        simp

theorem jsPush_ne_nil (m : List (κ × List α)) (k : κ) (v : α) :
    jsPush m k v ≠ [] := by
  cases m with
  | nil => simp [jsPush]
  | cons p t =>
    obtain ⟨k1, v1⟩ := p
    by_cases h : k = k1 <;> simp [jsPush, h]

theorem flatMap_jsPush_perm (m : List (κ × List α)) (k : κ) (v : α) :
    List.Perm ((jsPush m k v).flatMap Prod.snd) (m.flatMap Prod.snd ++ [v]) := by
  induction m with
  | nil => simp [jsPush]
  | cons p t ih =>
    obtain ⟨k1, v1⟩ := p
    by_cases h : k = k1
    · simp only [jsPush, if_pos h, List.flatMap_cons]
      calc ((v1 ++ [v]) ++ t.flatMap Prod.snd)
          = v1 ++ ([v] ++ t.flatMap Prod.snd) := by rw [List.append_assoc]
        _ ~ v1 ++ (t.flatMap Prod.snd ++ [v]) :=
            List.Perm.append_left _ List.perm_append_comm
        _ = (v1 ++ t.flatMap Prod.snd) ++ [v] := by rw [List.append_assoc]
    · simp only [jsPush, if_neg h, List.flatMap_cons]
      calc (v1 ++ (jsPush t k v).flatMap Prod.snd)
          ~ v1 ++ (t.flatMap Prod.snd ++ [v]) := List.Perm.append_left _ ih
        _ = (v1 ++ t.flatMap Prod.snd) ++ [v] := by rw [List.append_assoc]

theorem newKeys_congr (s1 s2 ks : List κ) (h : ∀ x, x ∈ s1 ↔ x ∈ s2) :
    newKeys s1 ks = newKeys s2 ks := by
  induction ks generalizing s1 s2 with
  | nil => simp [newKeys]
  | cons k t ih =>
    by_cases hk : k ∈ s1
    · simp only [newKeys]
      rw [if_pos hk, if_pos ((h k).mp hk)]
      exact ih s1 s2 h
    · simp only [newKeys]
      rw [if_neg hk, if_neg (fun hh => hk ((h k).mpr hh))]
      exact congrArg (fun l => k :: l) (ih (k :: s1) (k :: s2) (fun x => by simp [h x]))

theorem jsGet_pushFold_getD (ps : List (String × κ)) (m : List (κ × List String)) (k : κ) :
    (jsGet (pushFold m ps) k).getD [] = (jsGet m k).getD [] ++ valsOf ps k := by
  induction ps generalizing m with
  | nil => simp [pushFold, valsOf]
  | cons p t ih =>
    obtain ⟨v0, k0⟩ := p
    rw [pushFold, ih]
    by_cases h : k = k0
    · subst h
      rw [jsGet_jsPush, if_pos rfl]
      simp [valsOf, List.append_assoc]
    · rw [jsGet_jsPush, if_neg h]
      have h2 : ¬ k0 = k := fun hh => h hh.symm
      simp [valsOf, h2]

theorem jsGet_pushFold_none (ps : List (String × κ)) (m : List (κ × List String)) (k : κ) :
    jsGet (pushFold m ps) k = none ↔ jsGet m k = none ∧ valsOf ps k = [] := by
  induction ps generalizing m with
  | nil => simp [pushFold, valsOf]
  | cons p t ih =>
    obtain ⟨v0, k0⟩ := p
    rw [pushFold, ih]
    by_cases h : k = k0
    · subst h
      rw [jsGet_jsPush, if_pos rfl]
      simp [valsOf]
    · rw [jsGet_jsPush, if_neg h]
      have h2 : ¬ k0 = k := fun hh => h hh.symm
      simp [valsOf, h2]

theorem jsGet_pushFold_char (ps : List (String × κ)) (k : κ) :
    jsGet (pushFold [] ps) k =
      if valsOf ps k = [] then none else some (valsOf ps k) := by
  by_cases h : valsOf ps k = []
  · rw [if_pos h, jsGet_pushFold_none]
    exact ⟨by simp [jsGet], h⟩
  · rw [if_neg h]
    have h2 := jsGet_pushFold_getD ps [] k
    simp [jsGet] at h2
    cases hg : jsGet (pushFold [] ps) k with
    | none => rw [jsGet_pushFold_none] at hg; exact absurd hg.2 h
    | some g => rw [hg] at h2; simp at h2; rw [h2]

theorem keysOf_pushFold (ps : List (String × κ)) (m : List (κ × List String)) :
    keysOf (pushFold m ps) = keysOf m ++ newKeys (keysOf m) (ps.map Prod.snd) := by
  induction ps generalizing m with
  | nil => simp [pushFold, newKeys]
  | cons p t ih =>
    obtain ⟨v0, k0⟩ := p
    rw [pushFold, ih]
    by_cases h : k0 ∈ keysOf m
    · rw [keysOf_jsPush, if_pos h]
      simp only [List.map_cons, newKeys]
      rw [if_pos h]
    · rw [keysOf_jsPush, if_neg h]
      simp only [List.map_cons, newKeys]
      rw [if_neg h]
      rw [newKeys_congr (keysOf m ++ [k0]) (k0 :: keysOf m) _ (fun x => by simp [or_comm])]
      simp [List.append_assoc]

theorem flatMap_pushFold_perm (ps : List (String × κ)) (m : List (κ × List String)) :
    List.Perm ((pushFold m ps).flatMap Prod.snd) (m.flatMap Prod.snd ++ ps.map Prod.fst) := by
  induction ps generalizing m with
  | nil => simp [pushFold]
  | cons p t ih =>
    obtain ⟨v0, k0⟩ := p
    rw [pushFold]
    refine (ih _).trans ?_
    simp only [List.map_cons]
    calc ((jsPush m k0 v0).flatMap Prod.snd ++ t.map Prod.fst)
        ~ (m.flatMap Prod.snd ++ [v0]) ++ t.map Prod.fst :=
          List.Perm.append_right _ (flatMap_jsPush_perm m k0 v0)
      _ = m.flatMap Prod.snd ++ (v0 :: t.map Prod.fst) := by simp [List.append_assoc]

theorem pushFold_eq_nil (ps : List (String × κ)) (m : List (κ × List String)) :
    pushFold m ps = [] ↔ m = [] ∧ ps = [] := by
  induction ps generalizing m with
  | nil => simp [pushFold]
  | cons p t ih =>
    obtain ⟨v0, k0⟩ := p
    rw [pushFold, ih]
    simp [jsPush_ne_nil]

theorem map_fst_parts_perm (entries : List (String × Lit)) :
    List.Perm (entries.map Prod.fst)
      ((uniPart entries).map Prod.fst ++ (customPart entries).map Prod.fst) := by
  induction entries with
  | nil => simp [uniPart, customPart]
  | cons e t ih =>
    obtain ⟨i, l⟩ := e
    cases l with
    | uni u => simpa [uniPart, customPart] using ih.cons i
    | custom c =>
      simp only [uniPart, customPart, List.map_cons]
      exact (ih.cons i).trans List.perm_middle.symm

theorem mem_uniPart (entries : List (String × Lit)) (i : String) (l : List Nat) :
    (i, l) ∈ uniPart entries ↔ (i, Lit.uni l) ∈ entries := by
  induction entries with
  | nil => simp [uniPart]
  | cons e t ih =>
    obtain ⟨j, w⟩ := e
    cases w with
    | uni u => simp [uniPart, ih]
    | custom c => simp [uniPart, ih]

theorem mem_customPart (entries : List (String × Lit)) (i : String) (c : String) :
    (i, c) ∈ customPart entries ↔ (i, Lit.custom c) ∈ entries := by
  induction entries with
  | nil => simp [customPart]
  | cons e t ih =>
    obtain ⟨j, w⟩ := e
    cases w with
    | uni u => simp [customPart, ih]
    | custom c2 => simp [customPart, ih]

theorem walk_append (pa : List (List Nat × List String)) (σ : St) (p q : List Rec) :
    walk pa σ (p ++ q) =
      match walk pa σ p with
      | Except.error e => Except.error e
      | Except.ok σ2 => walk pa σ2 q := by
  induction p generalizing σ with
  | nil => simp [walk]
  | cons r t ih =>
    simp only [List.cons_append, walk]
    cases walkStep pa σ r with
    | error e => rfl
    | ok σ2 => exact ih σ2

theorem insertByVal_perm {γ : Type} (f : γ → Nat) (x : γ) (l : List γ) :
    List.Perm (insertByVal f x l) (x :: l) := by
  induction l with
  | nil => simp [insertByVal]
  | cons y t ih =>
    by_cases h : f x ≤ f y
    · simp [insertByVal, h]
    · simp only [insertByVal, if_neg h]
      exact (ih.cons y).trans (List.Perm.swap x y t)

theorem sortByVal_perm {γ : Type} (f : γ → Nat) (l : List γ) :
    List.Perm (sortByVal f l) l := by
  induction l with
  | nil => simp [sortByVal]
  | cons x t ih => exact (insertByVal_perm f x (sortByVal f t)).trans (ih.cons x)

theorem jsEntriesOrder_perm {γ : Type} (m : List (String × γ)) :
    List.Perm (jsEntriesOrder m) m := by
  unfold jsEntriesOrder
  refine List.Perm.trans (List.Perm.append_right _ (sortByVal_perm _ _)) ?_
  exact List.filter_append_perm _ m

theorem jsEntriesOrder_of_no_index {γ : Type} (m : List (String × γ))
    (h : ∀ p ∈ m, isArrayIndex p.1 = false) : jsEntriesOrder m = m := by
  unfold jsEntriesOrder
  have h1 : m.filter (fun p => isArrayIndex p.1) = [] := by
    rw [List.filter_eq_nil]
    intro p hp
    simp [h p hp]
  have h2 : m.filter (fun p => !isArrayIndex p.1) = m := by
    rw [List.filter_eq_self]
    intro p hp
    simp [h p hp]
  rw [h1, h2]
  simp [sortByVal]

theorem toNat_char_ofNat (n : Nat) (h : n < 55296) : (Char.ofNat n).toNat = n := by
  have hv : n.isValidChar := Or.inl h
  rw [Char.ofNat, dif_pos hv]
  show (Char.ofNatAux n hv).toNat = n
  rw [Char.ofNatAux]
  show (UInt32.ofNat' n _).toNat = n
  simp [UInt32.ofNat', UInt32.toNat]

theorem spacedOk_cons (c : Char) (l : List Char) :
    spacedOk (c :: l) = (!(isJsWs c && headWs l) && spacedOk l) := by
  cases l with
  | nil => simp [spacedOk, headWs]
  | cons d t => simp [spacedOk, headWs]

theorem alpha_not_ws (c : Char) (h : isAsciiAlpha c = true) : isJsWs c = false := by
  simp [isAsciiAlpha] at h
  simp [isJsWs]
  omega

theorem upChar_toNat (c : Char) (h : isAsciiAlpha c = true) :
    65 ≤ (upChar c).toNat ∧ (upChar c).toNat ≤ 90 := by
  simp [isAsciiAlpha] at h
  unfold upChar
  by_cases h2 : (97 ≤ c.toNat && c.toNat ≤ 122) = true
  · rw [if_pos h2]
    simp at h2
    rw [toNat_char_ofNat _ (by omega)]
    omega
  · rw [if_neg h2]
    simp at h2
    omega

theorem upChar_alpha (c : Char) (h : isAsciiAlpha c = true) :
    isAsciiAlpha (upChar c) = true := by
  have h2 := upChar_toNat c h
  simp [isAsciiAlpha]
  omega

theorem upChar_not_ws (c : Char) (h : isAsciiAlpha c = true) :
    isJsWs (upChar c) = false := by
  have h2 := upChar_toNat c h
  simp [isJsWs]
  omega

theorem upRuns_cons (b : Bool) (c : Char) (t : List Char) :
    upRuns b (c :: t) = upStep b c :: upRuns (isAsciiAlpha c) t := by
  by_cases h : isAsciiAlpha c <;> simp [upRuns, upStep, h]

theorem isJsWs_upStep (b : Bool) (c : Char) : isJsWs (upStep b c) = isJsWs c := by
  unfold upStep
  by_cases h : isAsciiAlpha c
  · rw [if_pos h]
    cases b
    · simp [upChar_not_ws c h, alpha_not_ws c h]
    · simp
  · rw [if_neg h]

theorem headWs_upRuns (b : Bool) (l : List Char) : headWs (upRuns b l) = headWs l := by
  cases l with
  | nil => simp [upRuns, headWs]
  | cons c t =>
    rw [upRuns_cons]
    simp [headWs, isJsWs_upStep]

theorem spacedOk_upRuns (l : List Char) : ∀ b, spacedOk (upRuns b l) = spacedOk l := by
  induction l with
  | nil => intro b; simp [upRuns]
  | cons c t ih =>
    intro b
    rw [upRuns_cons, spacedOk_cons, spacedOk_cons, isJsWs_upStep, headWs_upRuns, ih]

theorem hyphen_not_mem_upRuns (l : List Char) (hl : '-' ∉ l) (b : Bool) :
    '-' ∉ upRuns b l := by
  induction l generalizing b with
  | nil => simp [upRuns]
  | cons c t ih =>
    rw [upRuns_cons]
    intro hmem
    have hc : c ≠ '-' := fun hh => hl (by simp [hh])
    have ht : '-' ∉ t := fun hh => hl (by simp [hh])
    rcases List.mem_cons.mp hmem with h | h
    · unfold upStep at h
      by_cases ha : isAsciiAlpha c
      · rw [if_pos ha] at h
        cases b with
        | true => simp at h; exact hc h.symm
        | false =>
          simp at h
          have h4 := upChar_toNat c ha
          rw [← h] at h4
          exact absurd h4.1 (by decide)
      · rw [if_neg ha] at h
        exact hc h.symm
    · exact ih ht _ h

theorem allWs_upRuns (l : List Char)
    (hl : (l.all fun c => !isJsWs c || c == ' ') = true) (b : Bool) :
    ((upRuns b l).all fun c => !isJsWs c || c == ' ') = true := by
  induction l generalizing b with
  | nil => simp [upRuns]
  | cons c t ih =>
    rw [upRuns_cons]
    simp only [List.all_cons, Bool.and_eq_true] at hl ⊢
    refine ⟨?_, ih hl.2 _⟩
    by_cases ha : isAsciiAlpha c
    · have h2 : isJsWs (upStep b c) = false := by rw [isJsWs_upStep]; exact alpha_not_ws c ha
      simp [h2]
    · have h2 : upStep b c = c := by simp [upStep, ha]
      rw [h2]
      exact hl.1

theorem mem_collapseWsAux (l : List Char) :
    ∀ b c2, c2 ∈ collapseWsAux b l → c2 ∈ l ∨ c2 = ' ' := by
  induction l with
  | nil => intro b c2 h; simp [collapseWsAux] at h
  | cons c t ih =>
    intro b c2 h
    by_cases hw : isJsWs c
    · simp only [collapseWsAux, if_pos hw] at h
      cases b with
      | true =>
        rcases ih true c2 (by simpa using h) with h2 | h2
        · exact Or.inl (by simp [h2])
        · exact Or.inr h2
      | false =>
        rcases List.mem_cons.mp (by simpa using h) with h2 | h2
        · exact Or.inr h2
        · rcases ih true c2 h2 with h3 | h3
          · exact Or.inl (by simp [h3])
          · exact Or.inr h3
    · simp only [collapseWsAux, if_neg hw] at h
      rcases List.mem_cons.mp h with h2 | h2
      · exact Or.inl (by simp [h2])
      · rcases ih false c2 h2 with h3 | h3
        · exact Or.inl (by simp [h3])
        · exact Or.inr h3

theorem headWs_collapseWsAux_true (l : List Char) :
    headWs (collapseWsAux true l) = false := by
  induction l with
  | nil => simp [collapseWsAux, headWs]
  | cons c t ih =>
    by_cases hw : isJsWs c
    · simpa [collapseWsAux, hw] using ih
    · simp [collapseWsAux, hw, headWs]

theorem spacedOk_collapseWsAux (l : List Char) :
    ∀ b, spacedOk (collapseWsAux b l) = true := by
  induction l with
  | nil => intro b; simp [collapseWsAux, spacedOk]
  | cons c t ih =>
    intro b
    by_cases hw : isJsWs c
    · cases b with
      | true => simpa [collapseWsAux, hw] using ih true
      | false =>
        simp only [collapseWsAux, if_pos hw, Bool.false_eq_true, if_false]
        rw [spacedOk_cons, headWs_collapseWsAux_true]
        simp [ih true]
    · simp only [collapseWsAux, if_neg hw]
      rw [spacedOk_cons]
      simp [hw, ih false]

theorem allWs_collapseWsAux (l : List Char) :
    ∀ b, ((collapseWsAux b l).all fun c => !isJsWs c || c == ' ') = true := by
  induction l with
  | nil => intro b; simp [collapseWsAux]
  | cons c t ih =>
    intro b
    have hsp : isJsWs ' ' = true := by decide
    by_cases hw : isJsWs c
    · cases b with
      | true => simpa [collapseWsAux, hw] using ih true
      | false => simp [collapseWsAux, hw, ih true, hsp]
    · simp [collapseWsAux, hw, ih false]

theorem runStartsUpper_upRuns (l : List Char) : ∀ b, runStartsUpper b (upRuns b l) = true := by
  induction l with
  | nil => intro b; simp [upRuns, runStartsUpper]
  | cons c t ih =>
    intro b
    rw [upRuns_cons]
    by_cases h : isAsciiAlpha c
    · have h2 : isAsciiAlpha (upStep b c) = true := by
        unfold upStep
        rw [if_pos h]
        cases b with
        | true => simpa using h
        | false => simpa using upChar_alpha c h
      simp only [runStartsUpper, if_pos h2, h, Bool.and_eq_true]
      refine ⟨?_, ih true⟩
      cases b with
      | true => simp
      | false =>
        have h4 := upChar_toNat c h
        have h5 : upStep false c = upChar c := by simp [upStep, h]
        rw [h5]
        simp
        omega
    · have h2 : upStep b c = c := by simp [upStep, h]
      rw [h2]
      simp only [runStartsUpper, if_neg h, h]
      exact ih false

theorem no_hyphen_map (l : List Char) :
    '-' ∉ l.map fun c => if c = '-' then ' ' else c := by
  intro h
  rw [List.mem_map] at h
  obtain ⟨c, hc, he⟩ := h
  by_cases h2 : c = '-' <;> simp [h2] at he

theorem categorize_eq (entries : List (String × Lit)) (rs : List Rec) :
    categorize entries rs =
      match walk (buildPA entries) ⟨[], [], uniPart entries⟩ rs with
      | Except.error e => Except.error e
      | Except.ok σf =>
        if σf.rem.isEmpty then
          Except.ok (if (buildPB entries).isEmpty then prune σf.tax
            else jsSet (prune σf.tax) "GitHub Custom Emoji"
              [("", (jsEntriesOrder (buildPB entries)).map Prod.snd)])
        else Except.error Err.uncategorized := rfl

theorem walk_cons (pa : List (List Nat × List String)) (σ : St) (r : Rec) (rs : List Rec) :
    walk pa σ (r :: rs) =
      match walkStep pa σ r with
      | Except.error e => Except.error e
      | Except.ok σ2 => walk pa σ2 rs := rfl

theorem categorize_of_walk_error (entries : List (String × Lit)) (rs : List Rec)
    (e : Err) (hw : walk (buildPA entries) ⟨[], [], uniPart entries⟩ rs = Except.error e) :
    categorize entries rs = Except.error e := by
  rw [categorize_eq, hw]

theorem categorize_of_walk_ok (entries : List (String × Lit)) (rs : List Rec)
    (σf : St) (hw : walk (buildPA entries) ⟨[], [], uniPart entries⟩ rs = Except.ok σf) :
    categorize entries rs =
      if σf.rem.isEmpty then
        Except.ok (if (buildPB entries).isEmpty then prune σf.tax
          else jsSet (prune σf.tax) "GitHub Custom Emoji"
            [("", (jsEntriesOrder (buildPB entries)).map Prod.snd)])
      else Except.error Err.uncategorized := by
  rw [categorize_eq, hw]

theorem walkStep_rem_subset (pa : List (List Nat × List String)) (σ σ2 : St) (r : Rec)
    (hst : walkStep pa σ r = Except.ok σ2) : ∀ x ∈ σ2.rem, x ∈ σ.rem := by
  cases r with
  | category t0 =>
    simp only [walkStep] at hst
    injection hst with h2
    rw [← h2]
    exact fun x hx => hx
  | subcategory t0 =>
    simp only [walkStep] at hst
    split at hst
    · exact absurd hst (by simp)
    · injection hst with h2
      rw [← h2]
      exact fun x hx => hx
  | emoji v =>
    simp only [walkStep] at hst
    split at hst
    · injection hst with h2
      rw [← h2]
      exact fun x hx => hx
    · split at hst
      · exact absurd hst (by simp)
      · split at hst
        · exact absurd hst (by simp)
        · injection hst with h2
          rw [← h2]
          exact fun x hx => List.mem_of_mem_filter hx

theorem walk_rem_subset (pa : List (List Nat × List String)) (rs : List Rec) :
    ∀ σ σf, walk pa σ rs = Except.ok σf → ∀ x ∈ σf.rem, x ∈ σ.rem := by
  induction rs with
  | nil =>
    intro σ σf hw x hx
    simp only [walk] at hw
    injection hw with h
    rw [← h] at hx
    exact hx
  | cons r t ih =>
    intro σ σf hw x hx
    rw [walk] at hw
    cases hst : walkStep pa σ r with
    | error e => rw [hst] at hw; exact absurd hw (by simp)
    | ok σ2 =>
      rw [hst] at hw
      exact walkStep_rem_subset pa σ σ2 r hst x (ih σ2 σf hw x hx)

theorem walk_nocat (pa : List (List Nat × List String)) (p : List Rec) :
    ∀ rem σf, (∀ r ∈ p, isCategoryRec r = false) →
      walk pa ⟨[], [], rem⟩ p = Except.ok σf → σf.stack = [] ∧ σf.tax = [] := by
  induction p with
  | nil =>
    intro rem σf _ hw
    simp only [walk] at hw
    injection hw with h
    rw [← h]
    exact ⟨rfl, rfl⟩
  | cons r t ih =>
    intro rem σf hp hw
    cases r with
    | category t0 =>
      exact absurd (hp (Rec.category t0) (List.mem_cons_self _ _)) (by simp [isCategoryRec])
    | subcategory t0 =>
      rw [walk] at hw
      have hstep : walkStep pa ⟨[], [], rem⟩ (Rec.subcategory t0) = Except.error Err.typeErr := by
        simp [walkStep, jsGet]
      rw [hstep] at hw
      exact absurd hw (by simp)
    | emoji v =>
      rw [walk] at hw
      cases hpa : jsGet pa (stripKey v) with
      | none =>
        have hstep : walkStep pa ⟨[], [], rem⟩ (Rec.emoji v) = Except.ok ⟨[], [], rem⟩ := by
          simp [walkStep, hpa]
        rw [hstep] at hw
        exact ih rem σf (fun r hr => hp r (by simp [hr])) hw
      | some g =>
        have hstep : walkStep pa ⟨[], [], rem⟩ (Rec.emoji v) = Except.error Err.typeErr := by
          simp [walkStep, hpa, jsGet]
        rw [hstep] at hw
        exact absurd hw (by simp)

theorem walk_emojis_keep (pa : List (List Nat × List String)) (es : List Rec) :
    ∀ σ c, (∀ r ∈ es, isEmojiRec r = true) → σ.stack = [c] →
      jsGet σ.tax c = some [] →
      walk pa σ es = Except.error Err.typeErr ∨ walk pa σ es = Except.ok σ := by
  induction es with
  | nil => intro σ c _ _ _; right; rfl
  | cons r t ih =>
    intro σ c he hs ht
    cases r with
    | category t0 =>
      exact absurd (he (Rec.category t0) (List.mem_cons_self _ _)) (by simp [isEmojiRec])
    | subcategory t0 =>
      exact absurd (he (Rec.subcategory t0) (List.mem_cons_self _ _)) (by simp [isEmojiRec])
    | emoji v =>
      rw [walk]
      cases hpa : jsGet pa (stripKey v) with
      | none =>
        have hstep : walkStep pa σ (Rec.emoji v) = Except.ok σ := by
          simp [walkStep, hpa]
        rw [hstep]
        exact ih σ c (fun r hr => he r (by simp [hr])) hs ht
      | some g =>
        have hstep : walkStep pa σ (Rec.emoji v) = Except.error Err.typeErr := by
          simp only [walkStep, hpa]
          rw [hs]
          simp [ht, jsGet]
        rw [hstep]
        left
        rfl

theorem prune_no_empty (tx : TaxM) :
    ∀ p ∈ prune tx, p.2 ≠ [] ∧ ∀ q ∈ p.2, q.2 ≠ [] := by
  intro p hp
  unfold prune at hp
  rw [List.mem_filter] at hp
  obtain ⟨hp1, hp2⟩ := hp
  rw [List.mem_map] at hp1
  obtain ⟨p0, hp0, hpe⟩ := hp1
  constructor
  · intro hnil
    rw [hnil] at hp2
    simp at hp2
  · intro q hq
    rw [← hpe] at hq
    simp only [List.mem_filter] at hq
    intro hn
    rw [hn] at hq
    simp at hq

/-- C2, counterexample: the claim says partition (a) is keyed by the
normalized literal, so that looking up a record's normalized key finds
exactly the identifiers whose raw literals collapse to that key.  For the
single identifier "a" with raw literal U+263A U+FE0F, the raw literal
collapses to [0x263A], yet looking up [0x263A] in partition (a) finds
nothing: the code keys partition (a) by the raw literal (fetch.js line 81)
and never normalizes the identifier side. -/
theorem C2_counterexample :
    stripKey [0x263A, 0xFE0F] = [0x263A] ∧
    jsGet (buildPA [("a", Lit.uni [0x263A, 0xFE0F])]) [0x263A] = none :=
  ⟨rfl, rfl⟩

/-- C2, amended: partition (a) is keyed by each identifier's RAW decoded
literal; looking up any key k (in particular a record's normalized key)
finds exactly the identifiers whose raw literal EQUALS k, in identifier
enumeration order — identifiers whose raw literal merely collapses to k are
not found. -/
theorem C2_amended (entries : List (String × Lit)) (k : List Nat) :
    jsGet (buildPA entries) k =
      if valsOf (uniPart entries) k = [] then none
      else some (valsOf (uniPart entries) k) :=
  jsGet_pushFold_char _ _

/-- C3, counterexample: the claim says a matched key is removed from
partition (a), so the identifier group is never appended a second time.
With identifier "a" (literal U+263A) and two emoji records whose keys both
normalize to [0x263A], the group ["a"] is appended at BOTH record positions:
the coverage map entry is deleted (fetch.js lines 108-110) but the partition
key never is. -/
theorem C3_counterexample :
    categorize [("a", Lit.uni [0x263A])]
      [Rec.category "c", Rec.subcategory "s", Rec.emoji [0x263A],
        Rec.emoji [0x263A, 0xFE0F]]
      = Except.ok [("C", [("S", [["a"], ["a"]])])] ∧
    List.count "a" (taxIds [("C", [("S", [["a"], ["a"]])])]) = 2 :=
  ⟨rfl, rfl⟩

/-- C3, amended: when an emoji record's normalized key matches partition
(a), the whole identifier group is appended as one unit to the current
(category, subcategory) bucket and the matched identifiers are removed from
the coverage map — but the key is NOT removed from partition (a) (the
partition is an immutable input of the walk and is never mutated), so the
group is appended again at every later record with the same normalized
key. -/
theorem C3_amended (pa : List (List Nat × List String)) (σ : St) (v : List Nat)
    (g : List String) (c s : String) (sm : List (String × List (List String)))
    (lst : List (List String))
    (hst : σ.stack.get? 0 = some c) (hst2 : σ.stack.get? 1 = some s)
    (hg : jsGet pa (stripKey v) = some g)
    (hc : jsGet σ.tax c = some sm) (hs : jsGet sm s = some lst) :
    walkStep pa σ (Rec.emoji v) =
      Except.ok ⟨σ.stack, jsSet σ.tax c (jsSet sm s (lst ++ [g])),
        σ.rem.filter fun p => decide (p.1 ∉ g)⟩ := by
  simp only [walkStep, hg, hst, hst2, Option.getD_some, hc, hs]

/-- Witness for C3_amended at a concrete state. -/
theorem C3_amended_witness :
    walkStep (buildPA [("a", Lit.uni [0x263A])])
      ⟨["C", "S"], [("C", [("S", [])])], [("a", [0x263A])]⟩ (Rec.emoji [0x263A]) =
      Except.ok ⟨["C", "S"],
        jsSet [("C", [("S", [])])] "C" (jsSet [("S", ([] : List (List String)))] "S" ([] ++ [["a"]])),
        ([("a", [0x263A])].filter fun p => decide (p.1 ∉ ["a"]))⟩ :=
  C3_amended (buildPA [("a", Lit.uni [0x263A])])
    ⟨["C", "S"], [("C", [("S", [])])], [("a", [0x263A])]⟩ [0x263A]
    ["a"] "C" "S" [("S", [])] [] rfl rfl rfl rfl rfl

/-- C4: if the taxonomy walk completes without error, then categorize
fails with the uncategorized-identifiers error exactly when some
literal-mapped identifier was never matched (the coverage map is nonempty
after the walk; its residents are always literal-mapped input identifiers),
and otherwise returns a Taxonomy; in particular no partial taxonomy
accompanies the error, and the error is not raised when every literal-mapped
identifier was matched. -/
theorem C4_coverage (entries : List (String × Lit)) (rs : List Rec) (σf : St)
    (hw : walk (buildPA entries) ⟨[], [], uniPart entries⟩ rs = Except.ok σf) :
    (∀ x ∈ σf.rem, x ∈ uniPart entries) ∧
    (σf.rem ≠ [] → categorize entries rs = Except.error Err.uncategorized) ∧
    (σf.rem = [] → ∃ t, categorize entries rs = Except.ok t) := by
  refine ⟨fun x hx => walk_rem_subset _ rs _ σf hw x hx, ?_, ?_⟩
  · intro hne
    rw [categorize_of_walk_ok entries rs σf hw]
    simp [hne]
  · intro he
    rw [categorize_of_walk_ok entries rs σf hw]
    simp [he]

/-- Witness for C4_coverage: with one literal-mapped identifier and no
records, the walk succeeds, the identifier is unmatched, and categorize
fails with the uncategorized error. -/
theorem C4_coverage_witness :
    categorize [("a", Lit.uni [65])] [] = Except.error Err.uncategorized :=
  (C4_coverage [("a", Lit.uni [65])] [] ⟨[], [], [("a", [65])]⟩ rfl).2.1 (by simp)

/-- C5: a record stream with a Subcategory record before any Category
record makes categorize fail (JS: setting a property of `undefined` throws
a TypeError), whatever comes before or after; no Taxonomy is produced. -/
theorem C5_subcategory_underflow (entries : List (String × Lit)) (p : List Rec)
    (t0 : String) (q : List Rec) (hp : ∀ r ∈ p, isCategoryRec r = false) :
    ∃ e, categorize entries (p ++ Rec.subcategory t0 :: q) = Except.error e := by
  have hsplit := walk_append (buildPA entries) ⟨[], [], uniPart entries⟩ p
    (Rec.subcategory t0 :: q)
  cases hw : walk (buildPA entries) ⟨[], [], uniPart entries⟩ p with
  | error e =>
    exact ⟨e, categorize_of_walk_error _ _ _ (by rw [hsplit, hw])⟩
  | ok σ2 =>
    obtain ⟨hs, ht⟩ := walk_nocat (buildPA entries) p (uniPart entries) σ2 hp hw
    have hstep : walkStep (buildPA entries) σ2 (Rec.subcategory t0)
        = Except.error Err.typeErr := by
      simp only [walkStep]
      rw [hs, ht]
      simp [jsGet]
    refine ⟨Err.typeErr, categorize_of_walk_error _ _ _ ?_⟩
    rw [hsplit, hw]
    show walk (buildPA entries) σ2 (Rec.subcategory t0 :: q) = _
    rw [walk_cons, hstep]

/-- Witness for C5_subcategory_underflow at the concrete one-record
stream. -/
theorem C5_subcategory_underflow_witness :
    ∃ e, categorize ([] : List (String × Lit)) ([] ++ Rec.subcategory "x" :: [])
      = Except.error e :=
  C5_subcategory_underflow [] [] "x" [] (by simp)

/-- C6: every Taxonomy returned by categorize has no category with an empty
subcategory map and no subcategory with an empty group list; this covers
the pruning pass and the synthetic platform-specific category added after
it. -/
theorem C6_no_empty_buckets (entries : List (String × Lit)) (rs : List Rec)
    (t : TaxM) (h : categorize entries rs = Except.ok t) :
    ∀ p ∈ t, p.2 ≠ [] ∧ ∀ q ∈ p.2, q.2 ≠ [] := by
  cases hw : walk (buildPA entries) ⟨[], [], uniPart entries⟩ rs with
  | error e => rw [categorize_of_walk_error _ _ _ hw] at h; exact absurd h (by simp)
  | ok σf =>
    rw [categorize_of_walk_ok _ _ _ hw] at h
    by_cases hre : σf.rem.isEmpty
    · rw [if_pos hre] at h
      injection h with h2
      by_cases hpb : (buildPB entries).isEmpty
      · rw [if_pos hpb] at h2
        rw [← h2]
        exact prune_no_empty _
      · rw [if_neg hpb] at h2
        rw [← h2]
        intro p hp
        rcases mem_jsSet _ _ _ p hp with h3 | h3
        · rw [h3]
          refine ⟨by simp, ?_⟩

          intro q hq
          simp only [List.mem_singleton] at hq
          rw [hq]
          have hpb2 : buildPB entries ≠ [] := by
            intro hh
            rw [hh] at hpb
            exact hpb (by simp)
          have hord : jsEntriesOrder (buildPB entries) ≠ [] := by
            intro hh
            have hlen := (jsEntriesOrder_perm (buildPB entries)).length_eq
            rw [hh] at hlen
            exact hpb2 (List.eq_nil_of_length_eq_zero hlen.symm)
          simp only [ne_eq, List.map_eq_nil_iff]
          exact hord
        · exact prune_no_empty _ p h3
    · rw [if_neg hre] at h
      exact absurd h (by simp)

/-- Witness for C6_no_empty_buckets on a concrete successful run, at the
single category and its single subcategory. -/
theorem C6_no_empty_buckets_witness :
    ([("S", [["a"]])] : List (String × List (List String))) ≠ [] ∧
    ([["a"]] : List (List String)) ≠ [] :=
  ⟨(C6_no_empty_buckets [("a", Lit.uni [65])]
      [Rec.category "c", Rec.subcategory "s", Rec.emoji [65]]
      [("C", [("S", [["a"]])])] rfl ("C", [("S", [["a"]])]) (by simp)).1,
   (C6_no_empty_buckets [("a", Lit.uni [65])]
      [Rec.category "c", Rec.subcategory "s", Rec.emoji [65]]
      [("C", [("S", [["a"]])])] rfl ("C", [("S", [["a"]])]) (by simp)).2
     ("S", [["a"]]) (by simp)⟩

/-- C9: toTitleCase maps the two spec examples as claimed, and for every
input string the output contains no hyphen (hyphens were replaced by
spaces), every whitespace character of the output is a single plain space
with no two adjacent (runs collapsed), and every maximal ASCII-letter run
starts with an upper-case letter (first letter of each word
upper-cased). -/
theorem C9_toTitleCase :
    toTitleCase "smileys-&-emotion" = "Smileys & Emotion" ∧
    toTitleCase "face-smiling" = "Face Smiling" ∧
    ∀ s : String, '-' ∉ (toTitleCase s).data ∧
      ((toTitleCase s).data.all fun c => !isJsWs c || c == ' ') = true ∧
      spacedOk (toTitleCase s).data = true ∧
      runStartsUpper false (toTitleCase s).data = true := by
  refine ⟨by decide, by decide, fun s => ?_⟩
  have hd : (toTitleCase s).data
      = upRuns false (collapseWsAux false (s.data.map fun c => if c = '-' then ' ' else c)) :=
    rfl
  rw [hd]
  refine ⟨?_, ?_, ?_, ?_⟩
  · apply hyphen_not_mem_upRuns
    intro hmem
    rcases mem_collapseWsAux _ false _ hmem with h | h
    · exact no_hyphen_map s.data h
    · exact absurd h (by decide)
  · exact allWs_upRuns _ (allWs_collapseWsAux _ false) false
  · rw [spacedOk_upRuns]
    exact spacedOk_collapseWsAux _ false
  · exact runStartsUpper_upRuns _ false

/-- C10: an Emoji record whose normalized key matches partition (a) makes
categorize fail when it occurs before any Category record (first part) or
while the current category has seen no Subcategory record yet (second
part: the records since the last Category record are all Emoji records);
in JS both read a property of `undefined` and throw a TypeError. -/
theorem C10_emoji_without_context (entries : List (String × Lit)) (v : List Nat)
    (q : List Rec) (hkey : jsGet (buildPA entries) (stripKey v) ≠ none) :
    (∀ p, (∀ r ∈ p, isCategoryRec r = false) →
      ∃ e, categorize entries (p ++ Rec.emoji v :: q) = Except.error e) ∧
    (∀ p1 t0 es, (∀ r ∈ es, isEmojiRec r = true) →
      ∃ e, categorize entries ((p1 ++ Rec.category t0 :: es) ++ Rec.emoji v :: q)
        = Except.error e) := by
  obtain ⟨g, hg⟩ := Option.ne_none_iff_exists'.mp hkey
  constructor
  · intro p hp
    have hsplit := walk_append (buildPA entries) ⟨[], [], uniPart entries⟩ p
      (Rec.emoji v :: q)
    cases hw : walk (buildPA entries) ⟨[], [], uniPart entries⟩ p with
    | error e =>
      exact ⟨e, categorize_of_walk_error _ _ _ (by rw [hsplit, hw])⟩
    | ok σ2 =>
      obtain ⟨hs, ht⟩ := walk_nocat (buildPA entries) p (uniPart entries) σ2 hp hw
      have hstep : walkStep (buildPA entries) σ2 (Rec.emoji v)
          = Except.error Err.typeErr := by
        simp only [walkStep, hg]
        rw [hs, ht]
        simp [jsGet]
      refine ⟨Err.typeErr, categorize_of_walk_error _ _ _ ?_⟩
      rw [hsplit, hw]
      show walk (buildPA entries) σ2 (Rec.emoji v :: q) = _
      rw [walk_cons, hstep]
  · intro p1 t0 es he
    cases hw1 : walk (buildPA entries) ⟨[], [], uniPart entries⟩ p1 with
    | error e =>
      refine ⟨e, categorize_of_walk_error _ _ _ ?_⟩
      rw [walk_append, walk_append, hw1]
    | ok σ1 =>
      have hstep1 : walkStep (buildPA entries) σ1 (Rec.category t0)
          = Except.ok ⟨[toTitleCase t0], jsSet σ1.tax (toTitleCase t0) [], σ1.rem⟩ := rfl
      have hc : jsGet (jsSet σ1.tax (toTitleCase t0) []) (toTitleCase t0)
          = some [] := by
        rw [jsGet_jsSet]
        simp
      have hmid : walk (buildPA entries) ⟨[], [], uniPart entries⟩
          (p1 ++ Rec.category t0 :: es)
          = walk (buildPA entries)
              ⟨[toTitleCase t0], jsSet σ1.tax (toTitleCase t0) [], σ1.rem⟩ es := by
        rw [walk_append, hw1]
        show walk (buildPA entries) σ1 (Rec.category t0 :: es) = _
        rw [walk_cons, hstep1]
      rcases walk_emojis_keep (buildPA entries) es
          ⟨[toTitleCase t0], jsSet σ1.tax (toTitleCase t0) [], σ1.rem⟩
          (toTitleCase t0) he rfl hc with herr | hok
      · refine ⟨Err.typeErr, categorize_of_walk_error _ _ _ ?_⟩
        rw [walk_append, hmid, herr]
      · have hstep : walkStep (buildPA entries)
            ⟨[toTitleCase t0], jsSet σ1.tax (toTitleCase t0) [], σ1.rem⟩
            (Rec.emoji v) = Except.error Err.typeErr := by
          simp only [walkStep, hg]
          simp [hc, jsGet]
        refine ⟨Err.typeErr, categorize_of_walk_error _ _ _ ?_⟩
        rw [walk_append, hmid, hok]
        show walk (buildPA entries)
          ⟨[toTitleCase t0], jsSet σ1.tax (toTitleCase t0) [], σ1.rem⟩
          (Rec.emoji v :: q) = _
        rw [walk_cons, hstep]

/-- Witness for C10_emoji_without_context: a matching emoji record as the
very first record makes categorize fail. -/
theorem C10_emoji_without_context_witness :
    ∃ e, categorize [("a", Lit.uni [65])] ([] ++ Rec.emoji [65] :: [])
      = Except.error e :=
  (C10_emoji_without_context [("a", Lit.uni [65])] [65] [] (by decide)).1 [] (by simp)

theorem isPrefixL_append (s l : List Char) : isPrefixL s (s ++ l) = true := by
  induction s with
  | nil => simp [isPrefixL]
  | cons a t ih => simp [isPrefixL, ih]

theorem containsSeq_append (c : Char) (cs p s : List Char) :
    containsSeq c cs (p ++ (c :: cs) ++ s) = true := by
  induction p with
  | nil =>
    have h : ([] : List Char) ++ (c :: cs) ++ s = c :: (cs ++ s) := by simp
    rw [h, containsSeq]
    have h2 : c :: (cs ++ s) = (c :: cs) ++ s := by simp
    rw [h2, isPrefixL_append]
    simp
  | cons x t ih =>
    have h : (x :: t) ++ (c :: cs) ++ s = x :: (t ++ (c :: cs) ++ s) := by simp
    rw [h, containsSeq, ih]
    simp

theorem getLastD_irrel {γ : Type} (l : List γ) (hl : l ≠ []) (d1 d2 : γ) :
    l.getLastD d1 = l.getLastD d2 := by
  cases l with
  | nil => exact absurd rfl hl
  | cons a t => rw [List.getLastD_cons, List.getLastD_cons]

theorem splitC_ne_nil (c : Char) (l : List Char) : splitC c l ≠ [] := by
  cases l with
  | nil => simp [splitC]
  | cons x t =>
    by_cases h : x = c
    · simp [splitC, h]
    · simp only [splitC, if_neg h]
      cases splitC c t <;> simp

theorem splitC_no_sep (c : Char) (l : List Char) (h : c ∉ l) : splitC c l = [l] := by
  induction l with
  | nil => simp [splitC]
  | cons x t ih =>
    have hx : ¬ x = c := fun hh => h (by simp [hh])
    simp only [splitC, if_neg hx]
    rw [ih (fun hh => h (by simp [hh]))]

theorem splitC_append_sep (c : Char) (xs ys : List Char) (hx : c ∉ xs) :
    splitC c (xs ++ c :: ys) = xs :: splitC c ys := by
  induction xs with
  | nil => simp [splitC]
  | cons x t ih =>
    have hxc : ¬ x = c := fun hh => hx (by simp [hh])
    have h : (x :: t) ++ c :: ys = x :: (t ++ c :: ys) := by simp
    rw [h]
    simp only [splitC, if_neg hxc]
    rw [ih (fun hh => hx (by simp [hh]))]

theorem splitC_singleton (c : Char) (l : List Char) (h0 : List Char)
    (h : splitC c l = [h0]) : c ∉ l := by
  induction l generalizing h0 with
  | nil => simp
  | cons x t ih =>
    by_cases hx : x = c
    · rw [splitC, if_pos hx] at h
      injection h with h1 h2
      exact absurd h2 (splitC_ne_nil c t)
    · simp only [splitC, if_neg hx] at h
      cases hsp : splitC c t with
      | nil => exact absurd hsp (splitC_ne_nil c t)
      | cons g r =>
        rw [hsp] at h
        injection h with h1 h2
        subst h2
        intro hmem
        rcases List.mem_cons.mp hmem with h3 | h3
        · exact hx h3.symm
        · exact ih g hsp h3

theorem getLast_splitC_append (c : Char) (xs ys : List Char) (hy : c ∉ ys) :
    (splitC c (xs ++ c :: ys)).getLastD [] = ys := by
  induction xs with
  | nil =>
    have h : ([] : List Char) ++ c :: ys = [] ++ c :: ys := rfl
    rw [splitC_append_sep c [] ys (by simp)]
    rw [splitC_no_sep c ys hy]
    simp
  | cons x t ih =>
    by_cases hxc : x = c
    · subst hxc
      have h : (x :: t) ++ x :: ys = [] ++ x :: (t ++ x :: ys) := by simp
      rw [h, splitC_append_sep x [] _ (by simp)]
      rw [List.getLastD_cons]
      rw [getLastD_irrel _ (splitC_ne_nil _ _) _ []]
      exact ih
    · have h : (x :: t) ++ c :: ys = x :: (t ++ c :: ys) := by simp
      rw [h]
      simp only [splitC, if_neg hxc]
      cases hsp : splitC c (t ++ c :: ys) with
      | nil => exact absurd hsp (splitC_ne_nil _ _)
      | cons h0 r =>
        rw [hsp] at ih
        cases r with
        | nil =>
          have := splitC_singleton c _ h0 hsp
          exact absurd (by simp : c ∈ t ++ c :: ys) this
        | cons r0 r2 =>
          rw [List.getLastD_cons] at ih ⊢
          rw [getLastD_irrel (r0 :: r2) (by simp) (x :: h0) h0]
          exact ih

theorem splitC_joinSep (c : Char) (hs : List (List Char)) (hne : hs ≠ [])
    (h : ∀ x ∈ hs, c ∉ x) : splitC c (joinSep c hs) = hs := by
  induction hs with
  | nil => exact absurd rfl hne
  | cons a t ih =>
    cases t with
    | nil =>
      rw [joinSep, splitC_no_sep c a (h a (by simp))]
    | cons b t2 =>
      rw [joinSep, splitC_append_sep c a _ (h a (by simp))]
      rw [ih (by simp) (fun x hx => h x (by simp [hx]))]

theorem splitSkip_ne_nil (c : Char) (cs : List Char) :
    ∀ n l, splitSkip c cs n l ≠ [] := by
  intro n l
  induction l generalizing n with
  | nil => cases n <;> simp [splitSkip]
  | cons x t ih =>
    cases n with
    | succ m => simpa [splitSkip] using ih m
    | zero =>
      by_cases hp : isPrefixL (c :: cs) (x :: t) = true
      · simp [splitSkip, hp]
      · simp only [splitSkip, if_neg hp]
        cases hsp : splitSkip c cs 0 t with
        | nil => exact absurd hsp (ih 0)
        | cons h0 r => simp

theorem headD_splitSeq (c : Char) (cs xs rest : List Char) (hx : c ∉ xs) :
    (splitSeq c cs (xs ++ c :: (cs ++ rest))).headD [] = xs := by
  induction xs with
  | nil =>
    have hpre : isPrefixL (c :: cs) (c :: (cs ++ rest)) = true := by
      have h2 : c :: (cs ++ rest) = (c :: cs) ++ rest := by simp
      rw [h2, isPrefixL_append]
    simp only [List.nil_append, splitSeq, splitSkip, hpre, if_pos]
    simp
  | cons x t ih =>
    have hxc : ¬ x = c := fun hh => hx (by simp [hh])
    have hsh : (x :: t) ++ c :: (cs ++ rest) = x :: (t ++ c :: (cs ++ rest)) := by simp
    rw [hsh]
    have hpre : isPrefixL (c :: cs) (x :: (t ++ c :: (cs ++ rest))) = false := by
      simp only [isPrefixL]
      have : (c == x) = false := by
        rw [beq_eq_false_iff_ne]
        exact fun hh => hxc hh.symm
      simp [this]
    simp only [splitSeq, splitSkip, hpre] at ih ⊢
    rw [if_neg (by simp [hpre])]
    cases hsp : splitSkip c cs 0 (t ++ c :: (cs ++ rest)) with
    | nil => exact absurd hsp (splitSkip_ne_nil c cs 0 _)
    | cons h0 r =>
      rw [hsp] at ih
      simp only [List.headD_cons] at ih ⊢
      rw [ih (fun hh => hx (by simp [hh]))]

theorem mem_joinSep (c : Char) (hs : List (List Char)) (x : Char) :
    x ∈ joinSep c hs → x = c ∨ ∃ p ∈ hs, x ∈ p := by
  induction hs with
  | nil => simp [joinSep]
  | cons a t ih =>
    cases t with
    | nil =>
      intro h
      rw [joinSep] at h
      exact Or.inr ⟨a, by simp, h⟩
    | cons b t2 =>
      intro h
      rw [joinSep, List.mem_append] at h
      rcases h with h | h
      · exact Or.inr ⟨a, by simp, h⟩
      · rcases List.mem_cons.mp h with h2 | h2
        · exact Or.inl h2
        · rcases ih h2 with h3 | h3
          · exact Or.inl h3
          · obtain ⟨p, hp, hxp⟩ := h3
            exact Or.inr ⟨p, by simp [hp], hxp⟩

theorem hex_not_ws (x : Char) (h : isHexDigit x = true) : isJsWs x = false := by
  simp [isHexDigit] at h
  simp [isJsWs]
  omega

theorem takeWhile_all {γ : Type} (p : γ → Bool) (l : List γ)
    (h : ∀ x ∈ l, p x = true) : l.takeWhile p = l := by
  induction l with
  | nil => simp
  | cons x t ih =>
    rw [List.takeWhile_cons, if_pos (h x (by simp))]
    rw [ih (fun y hy => h y (by simp [hy]))]

theorem jsParseInt16_hex (l : List Char) (hne : l ≠ [])
    (hh : ∀ x ∈ l, isHexDigit x = true) :
    jsParseInt16 l = some ((hexAcc l : Nat) : Int) := by
  obtain ⟨x, t, rfl⟩ : ∃ x t, l = x :: t := by
    cases l with
    | nil => exact absurd rfl hne
    | cons x t => exact ⟨x, t, rfl⟩
  have hxhex := hh x (by simp)
  have hnws : isJsWs x = false := hex_not_ws x hxhex
  have hdrop : (x :: t).dropWhile isJsWs = x :: t := by
    rw [List.dropWhile_cons, hnws]
    simp
  have hxm : ¬ x = '-' := by
    intro hx
    rw [hx] at hxhex
    exact absurd hxhex (by decide)
  have hxp : ¬ x = '+' := by
    intro hx
    rw [hx] at hxhex
    exact absurd hxhex (by decide)
  have hcore : parseIntHexCore (x :: t) = some (hexAcc (x :: t)) := by
    have hnopre : (isPrefixL ['0', 'x'] (x :: t) || isPrefixL ['0', 'X'] (x :: t)) = false := by
      cases t with
      | nil => simp [isPrefixL]
      | cons y t2 =>
        have hy := hh y (by simp)
        have hyx : ¬ ('x' == y) = true := by
          intro hb
          rw [beq_iff_eq] at hb
          rw [← hb] at hy
          exact absurd hy (by decide)
        have hyX : ¬ ('X' == y) = true := by
          intro hb
          rw [beq_iff_eq] at hb
          rw [← hb] at hy
          exact absurd hy (by decide)
        simp only [isPrefixL, Bool.or_eq_false_iff, Bool.and_eq_false_iff]
        constructor
        · right; left
          simp [hyx]
        · right; left
          simp [hyX]
    unfold parseIntHexCore
    rw [hnopre]
    simp only [Bool.false_eq_true, if_false]
    rw [takeWhile_all isHexDigit (x :: t) hh]
    simp
  unfold jsParseInt16
  rw [hdrop]
  dsimp only
  split
  · rename_i r heq
    injection heq with h1 h2
    exact absurd h1 hxm
  · rename_i r heq
    injection heq with h1 h2
    exact absurd h1 hxp
  · rw [hcore]
    rfl

theorem cpUnits_ofNat (n : Nat) (h : n ≤ 0x10FFFF) :
    cpUnits (n : Int) = some (surrogateUnits n) := by
  have h1 : ((n : Int) < 0 || (n : Int) > 0x10FFFF) = false := by
    simp only [Bool.or_eq_false_iff, decide_eq_false_iff_not, not_lt]
    omega
  unfold cpUnits
  rw [if_neg (by rw [h1]; simp)]
  dsimp only
  have h2 : (n : Int).toNat = n := Int.toNat_natCast n
  rw [h2]
  unfold surrogateUnits
  by_cases h3 : n < 0x10000
  · rw [if_pos h3, if_pos h3]
  · rw [if_neg h3, if_neg h3]

theorem mapM_option_eq_map {γ δ : Type} (f : γ → Option δ) (g : γ → δ) (l : List γ)
    (h : ∀ x ∈ l, f x = some (g x)) : l.mapM f = some (l.map g) := by
  induction l with
  | nil => rfl
  | cons a t ih =>
    rw [List.mapM_cons, h a (by simp), ih (fun x hx => h x (by simp [hx]))]
    rfl

/-- C8: decoding image urls (fetch.js lines 18-29).  The two spec examples
decode as claimed (U+1F600, and the flag pair U+1F1FA U+1F1F8, here as
UTF-16 code units).  In general, a locator whose path ends with the
"/unicode/" segment followed by hyphen-joined hex code-point texts and the
".png" extension decodes to the concatenation, in filename order, of the
code points; and a locator without the "/unicode/" segment decodes to a
PlatformRef wrapping the trailing path component with the extension
stripped. -/
theorem C8_decode :
    decodeUrl "https://x/unicode/1f600.png" = some (Lit.uni [0xD83D, 0xDE00]) ∧
    decodeUrl "https://x/unicode/1f1fa-1f1f8.png"
      = some (Lit.uni [0xD83C, 0xDDFA, 0xD83C, 0xDDF8]) ∧
    (∀ pre hs, hs ≠ [] →
      (∀ x ∈ hs, x ≠ [] ∧ ∀ ch ∈ x, isHexDigit ch = true) →
      (∀ x ∈ hs, hexAcc x ≤ 0x10FFFF) →
      decodeUrl (String.mk (pre ++ unicodeSeg ++ (joinSep '-' hs ++ ['.', 'p', 'n', 'g'])))
        = some (Lit.uni ((hs.map fun x => surrogateUnits (hexAcc x)).flatten))) ∧
    (∀ pre name, ('/' : Char) ∉ name → ('.' : Char) ∉ name →
      containsSeq '/' ['u', 'n', 'i', 'c', 'o', 'd', 'e', '/']
        (pre ++ '/' :: (name ++ ['.', 'p', 'n', 'g'])) = false →
      decodeUrl (String.mk (pre ++ '/' :: (name ++ ['.', 'p', 'n', 'g'])))
        = some (Lit.custom (String.mk name))) := by
  refine ⟨by decide, by decide, ?_, ?_⟩
  · intro pre hs hne hhex hle
    have hjoin_mem : ∀ x, x ∈ joinSep '-' hs → isHexDigit x = true ∨ x = '-' := by
      intro x hx
      rcases mem_joinSep '-' hs x hx with h | h
      · exact Or.inr h
      · obtain ⟨p, hp, hxp⟩ := h
        exact Or.inl ((hhex p hp).2 x hxp)
    have hnoslash : ('/' : Char) ∉ joinSep '-' hs ++ ['.', 'p', 'n', 'g'] := by
      intro hx
      rw [List.mem_append] at hx
      rcases hx with hx | hx
      · rcases hjoin_mem '/' hx with h | h
        · exact absurd h (by decide)
        · exact absurd h (by decide)
      · exact absurd hx (by decide)
    have hnodot : ('.' : Char) ∉ joinSep '-' hs := by
      intro hx
      rcases hjoin_mem '.' hx with h | h
      · exact absurd h (by decide)
      · exact absurd h (by decide)
    have hcont : containsSeq '/' ['u', 'n', 'i', 'c', 'o', 'd', 'e', '/']
        (pre ++ unicodeSeg ++ (joinSep '-' hs ++ ['.', 'p', 'n', 'g'])) = true := by
      have hseg : unicodeSeg = '/' :: ['u', 'n', 'i', 'c', 'o', 'd', 'e', '/'] := rfl
      rw [hseg]
      exact containsSeq_append _ _ _ _
    have hlast : lastComp (pre ++ unicodeSeg ++ (joinSep '-' hs ++ ['.', 'p', 'n', 'g']))
        = joinSep '-' hs ++ ['.', 'p', 'n', 'g'] := by
      have hsh : pre ++ unicodeSeg ++ (joinSep '-' hs ++ ['.', 'p', 'n', 'g'])
          = (pre ++ ['/', 'u', 'n', 'i', 'c', 'o', 'd', 'e']) ++ '/' ::
            (joinSep '-' hs ++ ['.', 'p', 'n', 'g']) := by
        simp [unicodeSeg]
      rw [lastComp, hsh, getLast_splitC_append _ _ _ hnoslash]
    have hstrip : stripPng (joinSep '-' hs ++ ['.', 'p', 'n', 'g']) = joinSep '-' hs := by
      have hsh : joinSep '-' hs ++ ['.', 'p', 'n', 'g']
          = joinSep '-' hs ++ '.' :: (['p', 'n', 'g'] ++ []) := by simp
      rw [stripPng, hsh, headD_splitSeq _ _ _ _ hnodot]
    have hdash : splitC '-' (joinSep '-' hs) = hs := by
      apply splitC_joinSep _ _ hne
      intro x hx hmem
      exact absurd ((hhex x hx).2 '-' hmem) (by decide)
    have hmap : ∀ x ∈ hs, ((jsParseInt16 x).bind cpUnits)
        = some (surrogateUnits (hexAcc x)) := by
      intro x hx
      rw [jsParseInt16_hex x (hhex x hx).1 (hhex x hx).2]
      rw [Option.some_bind]
      exact cpUnits_ofNat _ (hle x hx)
    unfold decodeUrl
    rw [show (String.mk (pre ++ unicodeSeg ++ (joinSep '-' hs ++ ['.', 'p', 'n', 'g']))).data
        = pre ++ unicodeSeg ++ (joinSep '-' hs ++ ['.', 'p', 'n', 'g']) from rfl]
    rw [if_pos hcont]
    dsimp only
    rw [hlast, hstrip, hdash]
    rw [mapM_option_eq_map _ (fun x => surrogateUnits (hexAcc x)) hs hmap]
    rfl
  · intro pre name hslash hdot hcont
    have hnoslash : ('/' : Char) ∉ name ++ ['.', 'p', 'n', 'g'] := by
      intro hx
      rw [List.mem_append] at hx
      rcases hx with hx | hx
      · exact hslash hx
      · exact absurd hx (by decide)
    have hlast : lastComp (pre ++ '/' :: (name ++ ['.', 'p', 'n', 'g']))
        = name ++ ['.', 'p', 'n', 'g'] := by
      rw [lastComp, getLast_splitC_append _ _ _ hnoslash]
    have hstrip : stripPng (name ++ ['.', 'p', 'n', 'g']) = name := by
      have hsh : name ++ ['.', 'p', 'n', 'g'] = name ++ '.' :: (['p', 'n', 'g'] ++ []) := by
        simp
      rw [stripPng, hsh, headD_splitSeq _ _ _ _ hdot]
    unfold decodeUrl
    rw [show (String.mk (pre ++ '/' :: (name ++ ['.', 'p', 'n', 'g']))).data
        = pre ++ '/' :: (name ++ ['.', 'p', 'n', 'g']) from rfl]
    rw [if_neg (by rw [hcont]; simp)]
    rw [hlast, hstrip]

/-- Witness for C8_decode at the concrete platform-specific locator
"x/o.png". -/
theorem C8_decode_witness :
    decodeUrl (String.mk (['x'] ++ '/' :: (['o'] ++ ['.', 'p', 'n', 'g'])))
      = some (Lit.custom (String.mk ['o'])) :=
  C8_decode.2.2.2 ['x'] ['o'] (by decide) (by decide) (by decide)

theorem jsGet_mem (m : List (κ × α)) (k : κ) (a : α) (h : jsGet m k = some a) :
    (k, a) ∈ m := by
  induction m with
  | nil => simp [jsGet] at h
  | cons p t ih =>
    obtain ⟨k1, v1⟩ := p
    by_cases hk : k = k1
    · subst hk
      simp [jsGet] at h
      simp [h]
    · simp [jsGet, hk] at h
      simp [ih h]

theorem jsGet_key_mem (m : List (κ × α)) (k : κ) (a : α) (h : jsGet m k = some a) :
    k ∈ keysOf m := by
  by_cases h2 : k ∈ keysOf m
  · exact h2
  · rw [← jsGet_eq_none_iff] at h2
    rw [h2] at h
    exact absurd h (by simp)

theorem jsGet_of_mem_nodup (m : List (κ × α)) (hm : (keysOf m).Nodup)
    (p : κ × α) (hp : p ∈ m) : jsGet m p.1 = some p.2 := by
  induction m with
  | nil => simp at hp
  | cons e t ih =>
    obtain ⟨k1, v1⟩ := e
    simp only [keysOf, List.map_cons, List.nodup_cons] at hm
    rcases List.mem_cons.mp hp with h | h
    · subst h
      simp [jsGet]
    · have hne : ¬ p.1 = k1 := by
        intro hh
        exact hm.1 (by rw [← hh]; exact List.mem_map.mpr ⟨p, h, rfl⟩)
      simp only [jsGet, if_neg hne]
      exact ih hm.2 h

theorem newKeys_not_mem_seen {seen ks : List κ} (x : κ) (h : x ∈ newKeys seen ks) :
    x ∉ seen := by
  induction ks generalizing seen with
  | nil => simp [newKeys] at h
  | cons k t ih =>
    by_cases hk : k ∈ seen
    · rw [newKeys, if_pos hk] at h
      exact ih h
    · rw [newKeys, if_neg hk] at h
      rcases List.mem_cons.mp h with h2 | h2
      · subst h2; exact hk
      · intro hx
        exact ih h2 (by simp [hx])

theorem newKeys_nodup (seen ks : List κ) : (newKeys seen ks).Nodup := by
  induction ks generalizing seen with
  | nil => simp [newKeys]
  | cons k t ih =>
    by_cases hk : k ∈ seen
    · rw [newKeys, if_pos hk]
      exact ih seen
    · rw [newKeys, if_neg hk]
      refine List.nodup_cons.mpr ⟨?_, ih (k :: seen)⟩
      intro hmem
      exact newKeys_not_mem_seen k hmem (by simp)

theorem assoc_reconstruct (m : List (κ × List String)) (v : κ → List String)
    (h : ∀ p ∈ m, p.2 = v p.1) : m = (keysOf m).map fun k => (k, v k) := by
  induction m with
  | nil => simp [keysOf]
  | cons p t ih =>
    obtain ⟨k1, v1⟩ := p
    have h1 : v1 = v k1 := h (k1, v1) (by simp)
    have h2 := ih fun q hq => h q (by simp [hq])
    calc (k1, v1) :: t = (k1, v k1) :: t := by rw [h1]
      _ = (k1, v k1) :: (keysOf t).map (fun k => (k, v k)) := by rw [← h2]
      _ = (keysOf ((k1, v1) :: t)).map (fun k => (k, v k)) := by simp [keysOf]

theorem buildPB_eq (entries : List (String × Lit)) :
    buildPB entries = (firstKeys ((customPart entries).map Prod.snd)).map
      fun k => (k, valsOf (customPart entries) k) := by
  have hkeys : keysOf (buildPB entries)
      = firstKeys ((customPart entries).map Prod.snd) := by
    unfold buildPB firstKeys
    rw [keysOf_pushFold]
    simp [keysOf]
  have hnodup : (keysOf (buildPB entries)).Nodup := by
    rw [hkeys]
    exact newKeys_nodup _ _
  have hvals : ∀ p ∈ buildPB entries, p.2 = valsOf (customPart entries) p.1 := by
    intro p hp
    have hg := jsGet_of_mem_nodup _ hnodup p hp
    have hchar := jsGet_pushFold_char (customPart entries) p.1
    rw [show pushFold [] (customPart entries) = buildPB entries from rfl] at hchar
    rw [hg] at hchar
    by_cases hv : valsOf (customPart entries) p.1 = []
    · rw [if_pos hv] at hchar
      exact absurd hchar (by simp)
    · rw [if_neg hv] at hchar
      injection hchar
  rw [← hkeys]
  exact assoc_reconstruct _ _ hvals

theorem walkStep_tax_ids (pa : List (List Nat × List String)) (σ σ2 : St) (r : Rec)
    (hst : walkStep pa σ r = Except.ok σ2) (x : String) (hx : x ∈ taxIds σ2.tax) :
    x ∈ taxIds σ.tax ∨ x ∈ pa.flatMap Prod.snd := by
  cases r with
  | category t0 =>
    simp only [walkStep] at hst
    injection hst with h2
    have h3 : σ2.tax = jsSet σ.tax (toTitleCase t0) [] := by rw [← h2]
    rw [h3] at hx
    unfold taxIds at hx
    rcases flatMap_jsSet_subset σ.tax (toTitleCase t0) []
        (fun sm => sm.flatMap fun q => q.2.flatten) x hx with h | h
    · simp at h
    · exact Or.inl h
  | subcategory t0 =>
    simp only [walkStep] at hst
    split at hst
    · exact absurd hst (by simp)
    · rename_i sm heq
      injection hst with h2
      subst h2
      unfold taxIds at hx
      dsimp only at hx
      rcases flatMap_jsSet_subset σ.tax _ (jsSet sm (toTitleCase t0) [])
          (fun sm2 => sm2.flatMap fun q => q.2.flatten) x hx with h | h
      · rcases flatMap_jsSet_subset sm (toTitleCase t0) [] List.flatten x h with h4 | h4
        · simp at h4
        · left
          unfold taxIds
          rw [List.mem_flatMap]
          exact ⟨_, jsGet_mem _ _ _ heq, h4⟩
      · exact Or.inl h
  | emoji v =>
    simp only [walkStep] at hst
    split at hst
    · injection hst with h2
      rw [← h2] at hx
      exact Or.inl hx
    · rename_i g hg
      split at hst
      · exact absurd hst (by simp)
      · rename_i sm hsm
        split at hst
        · exact absurd hst (by simp)
        · rename_i lst hlst
          injection hst with h2
          subst h2
          unfold taxIds at hx
          dsimp only at hx
          rcases flatMap_jsSet_subset σ.tax _ (jsSet sm _ (lst ++ [g]))
              (fun sm2 => sm2.flatMap fun q => q.2.flatten) x hx with h | h
          · rcases flatMap_jsSet_subset sm _ (lst ++ [g]) List.flatten x h with h4 | h4
            · rw [List.flatten_append] at h4
              rcases List.mem_append.mp h4 with h5 | h5
              · left
                unfold taxIds
                rw [List.mem_flatMap]
                refine ⟨_, jsGet_mem _ _ _ hsm, ?_⟩
                rw [List.mem_flatMap]
                exact ⟨_, jsGet_mem _ _ _ hlst, h5⟩
              · right
                rw [List.mem_flatMap]
                refine ⟨_, jsGet_mem _ _ _ hg, ?_⟩
                simpa using h5
            · left
              unfold taxIds
              rw [List.mem_flatMap]
              exact ⟨_, jsGet_mem _ _ _ hsm, h4⟩
          · exact Or.inl h

theorem walk_tax_ids (pa : List (List Nat × List String)) (rs : List Rec) :
    ∀ σ σf, walk pa σ rs = Except.ok σf → ∀ x ∈ taxIds σf.tax,
      x ∈ taxIds σ.tax ∨ x ∈ pa.flatMap Prod.snd := by
  induction rs with
  | nil =>
    intro σ σf hw x hx
    simp only [walk] at hw
    injection hw with h
    rw [← h] at hx
    exact Or.inl hx
  | cons r t ih =>
    intro σ σf hw x hx
    rw [walk_cons] at hw
    cases hst : walkStep pa σ r with
    | error e => rw [hst] at hw; exact absurd hw (by simp)
    | ok σ2 =>
      rw [hst] at hw
      rcases ih σ2 σf hw x hx with h | h
      · exact walkStep_tax_ids pa σ σ2 r hst x h
      · exact Or.inr h

theorem walkStep_keys (pa : List (List Nat × List String)) (σ σ2 : St) (r : Rec)
    (hst : walkStep pa σ r = Except.ok σ2) (c : String) (hc : c ∈ keysOf σ2.tax) :
    c ∈ keysOf σ.tax ∨ ∃ t0, r = Rec.category t0 ∧ c = toTitleCase t0 := by
  cases r with
  | category t0 =>
    simp only [walkStep] at hst
    injection hst with h2
    have h3 : σ2.tax = jsSet σ.tax (toTitleCase t0) [] := by rw [← h2]
    rw [h3, keysOf_jsSet] at hc
    by_cases hmem : toTitleCase t0 ∈ keysOf σ.tax
    · rw [if_pos hmem] at hc
      exact Or.inl hc
    · rw [if_neg hmem] at hc
      rcases List.mem_append.mp hc with h | h
      · exact Or.inl h
      · exact Or.inr ⟨t0, rfl, by simpa using h⟩
  | subcategory t0 =>
    simp only [walkStep] at hst
    split at hst
    · exact absurd hst (by simp)
    · rename_i sm heq
      injection hst with h2
      subst h2
      dsimp only at hc
      rw [keysOf_jsSet, if_pos (jsGet_key_mem _ _ _ heq)] at hc
      exact Or.inl hc
  | emoji v =>
    simp only [walkStep] at hst
    split at hst
    · injection hst with h2
      rw [← h2] at hc
      exact Or.inl hc
    · rename_i g hg
      split at hst
      · exact absurd hst (by simp)
      · rename_i sm hsm
        split at hst
        · exact absurd hst (by simp)
        · rename_i lst hlst
          injection hst with h2
          subst h2
          dsimp only at hc
          rw [keysOf_jsSet, if_pos (jsGet_key_mem _ _ _ hsm)] at hc
          exact Or.inl hc

theorem walk_keys (pa : List (List Nat × List String)) (rs : List Rec) :
    ∀ σ σf, walk pa σ rs = Except.ok σf → ∀ c ∈ keysOf σf.tax,
      c ∈ keysOf σ.tax ∨ c ∈ catTitles rs := by
  induction rs with
  | nil =>
    intro σ σf hw c hc
    simp only [walk] at hw
    injection hw with h
    rw [← h] at hc
    exact Or.inl hc
  | cons r t ih =>
    intro σ σf hw c hc
    rw [walk_cons] at hw
    cases hst : walkStep pa σ r with
    | error e => rw [hst] at hw; exact absurd hw (by simp)
    | ok σ2 =>
      rw [hst] at hw
      rcases ih σ2 σf hw c hc with h | h
      · rcases walkStep_keys pa σ σ2 r hst c h with h2 | h2
        · exact Or.inl h2
        · obtain ⟨t0, ht0, hct⟩ := h2
          right
          rw [ht0]
          simp [catTitles, hct]
      · right
        cases r <;> simp [catTitles] <;> simp [catTitles] at h <;> simp [h]

theorem mem_prune (t : TaxM) (p : String × List (String × List (List String)))
    (hp : p ∈ prune t) : ∃ p0 ∈ t, p.1 = p0.1 ∧ ∀ q ∈ p.2, q ∈ p0.2 := by
  unfold prune at hp
  rw [List.mem_filter] at hp
  obtain ⟨hp1, _⟩ := hp
  rw [List.mem_map] at hp1
  obtain ⟨p0, hp0, hpe⟩ := hp1
  refine ⟨p0, hp0, by rw [← hpe], ?_⟩
  intro q hq
  rw [← hpe] at hq
  exact List.mem_of_mem_filter hq

theorem keysOf_prune_subset (t : TaxM) (c : String) (hc : c ∈ keysOf (prune t)) :
    c ∈ keysOf t := by
  unfold keysOf at hc
  rw [List.mem_map] at hc
  obtain ⟨p, hp, hpe⟩ := hc
  obtain ⟨p0, hp0, hpe2, _⟩ := mem_prune t p hp
  unfold keysOf
  rw [List.mem_map]
  exact ⟨p0, hp0, by rw [← hpe2, hpe]⟩

theorem parts_disjoint (entries : List (String × Lit))
    (hnodup : (entries.map Prod.fst).Nodup) (i : String)
    (h1 : i ∈ (uniPart entries).map Prod.fst)
    (h2 : i ∈ (customPart entries).map Prod.fst) : False := by
  have hperm := map_fst_parts_perm entries
  have hn2 := hperm.nodup_iff.mp hnodup
  rw [List.nodup_append] at hn2
  exact hn2.2.2 h1 h2

/-- C7, counterexample: the claim says the synthetic category lists the
platform-specific groups in the order their grouping keys were first
observed.  With keys "octocat" then "123", first-observed order gives
groups [["a"], ["b"]], but `Object.entries` enumerates the array-index-like
key "123" first, so the code outputs [["b"], ["a"]]. -/
theorem C7_counterexample :
    (firstKeys ((customPart [("a", Lit.custom "octocat"), ("b", Lit.custom "123")]).map
        Prod.snd)).map
        (fun k => valsOf (customPart [("a", Lit.custom "octocat"), ("b", Lit.custom "123")]) k)
      = [["a"], ["b"]] ∧
    categorize [("a", Lit.custom "octocat"), ("b", Lit.custom "123")] []
      = Except.ok [("GitHub Custom Emoji", [("", [["b"], ["a"]])])] ∧
    ([["b"], ["a"]] : List (List String)) ≠ [["a"], ["b"]] :=
  ⟨rfl, rfl, by decide⟩

/-- C7, amended: assume the input identifiers are distinct and no
platform grouping key is an array-index-like string (a canonical decimal
integer below 2^32 - 1; `Object.entries` would enumerate those first).
Then whenever categorize succeeds and at least one platform-specific
identifier exists, the output maps "GitHub Custom Emoji" to exactly one
subcategory with the empty title whose list holds the groups of all
platform-specific identifiers grouped by shared key in first-observed
order; platform-specific identifiers appear in no other category; and with
no platform-specific identifier, every category of the output comes from a
Category record (no synthetic category is added). -/
theorem C7_amended (entries : List (String × Lit)) (rs : List Rec) (t : TaxM)
    (hnodup : (entries.map Prod.fst).Nodup)
    (hidx : ∀ p ∈ buildPB entries, isArrayIndex p.1 = false)
    (hok : categorize entries rs = Except.ok t) :
    (customPart entries ≠ [] →
      jsGet t "GitHub Custom Emoji"
        = some [("", (firstKeys ((customPart entries).map Prod.snd)).map
            fun k => valsOf (customPart entries) k)]) ∧
    (∀ p ∈ t, p.1 ≠ "GitHub Custom Emoji" → ∀ q ∈ p.2, ∀ g ∈ q.2,
      ∀ ic ∈ customPart entries, ic.1 ∉ g) ∧
    (customPart entries = [] → ∀ c ∈ keysOf t, c ∈ catTitles rs) := by
  cases hw : walk (buildPA entries) ⟨[], [], uniPart entries⟩ rs with
  | error e =>
    rw [categorize_of_walk_error _ _ _ hw] at hok
    exact absurd hok (by simp)
  | ok σf =>
    rw [categorize_of_walk_ok _ _ _ hw] at hok
    by_cases hre : σf.rem.isEmpty
    · rw [if_pos hre] at hok
      injection hok with ht
      have htax_sub : ∀ x ∈ taxIds σf.tax, x ∈ (uniPart entries).map Prod.fst := by
        intro x hx
        rcases walk_tax_ids _ rs _ σf hw x hx with h | h
        · simp [taxIds] at h
        · have hperm := flatMap_pushFold_perm (uniPart entries)
            ([] : List (List Nat × List String))
          rw [show pushFold ([] : List (List Nat × List String)) (uniPart entries)
              = buildPA entries from rfl] at hperm
          have h2 := hperm.mem_iff.mp h
          simpa using h2
      have hkeys_sub : ∀ c ∈ keysOf σf.tax, c ∈ catTitles rs := by
        intro c hc
        rcases walk_keys _ rs _ σf hw c hc with h | h
        · simp [keysOf] at h
        · exact h
      refine ⟨?_, ?_, ?_⟩
      · intro hcp
        have hpb : ¬ (buildPB entries).isEmpty = true := by
          intro hh
          rw [List.isEmpty_iff] at hh
          unfold buildPB at hh
          rw [pushFold_eq_nil] at hh
          exact hcp hh.2
        rw [if_neg hpb] at ht
        rw [← ht]
        rw [jsGet_jsSet, if_pos rfl]
        rw [jsEntriesOrder_of_no_index _ hidx, buildPB_eq]
        simp [List.map_map, Function.comp]
      · intro p hp hpne q hq g hg ic hic hmem
        have hp2 : p ∈ prune σf.tax := by
          by_cases hpb : (buildPB entries).isEmpty
          · rw [if_pos hpb] at ht
            rw [← ht] at hp
            exact hp
          · rw [if_neg hpb] at ht
            rw [← ht] at hp
            rcases mem_jsSet _ _ _ p hp with h | h
            · exact absurd (by rw [h]) hpne
            · exact h
        obtain ⟨p0, hp0, _, hsub⟩ := mem_prune _ p hp2
        have hq0 := hsub q hq
        have hx : ic.1 ∈ taxIds σf.tax := by
          unfold taxIds
          rw [List.mem_flatMap]
          refine ⟨p0, hp0, ?_⟩
          rw [List.mem_flatMap]
          refine ⟨q, hq0, ?_⟩
          rw [List.mem_flatten]
          exact ⟨g, hg, hmem⟩
        exact parts_disjoint entries hnodup ic.1 (htax_sub ic.1 hx)
          (List.mem_map.mpr ⟨ic, hic, rfl⟩)
      · intro hcp c hc
        have hpb : (buildPB entries).isEmpty = true := by
          rw [List.isEmpty_iff]
          unfold buildPB
          rw [pushFold_eq_nil]
          exact ⟨rfl, hcp⟩
        rw [if_pos hpb] at ht
        rw [← ht] at hc
        exact hkeys_sub c (keysOf_prune_subset _ _ hc)
    · rw [if_neg hre] at hok
      exact absurd hok (by simp)

/-- Witness for C7_amended on a concrete run with one Unicode identifier
and one platform-specific identifier. -/
theorem C7_amended_witness :
    jsGet [("C", [("S", [["a"]])]), ("GitHub Custom Emoji", [("", [["b"]])])]
        "GitHub Custom Emoji"
      = some [("", (firstKeys ((customPart
            [("a", Lit.uni [65]), ("b", Lit.custom "octo")]).map Prod.snd)).map
          fun k => valsOf (customPart [("a", Lit.uni [65]), ("b", Lit.custom "octo")]) k)] :=
  (C7_amended [("a", Lit.uni [65]), ("b", Lit.custom "octo")]
    [Rec.category "c", Rec.subcategory "s", Rec.emoji [65]]
    [("C", [("S", [["a"]])]), ("GitHub Custom Emoji", [("", [["b"]])])]
    (by decide) (by decide) rfl).1 (by decide)

theorem nodup_middle_not_mem {γ : Type} (A B : List γ) (x : γ)
    (h : (A ++ x :: B).Nodup) : x ∉ A := by
  rw [List.nodup_append] at h
  intro hx
  exact h.2.2 hx (by simp)

theorem nodup_fst_inj {γ : Type} (l : List (String × γ)) (hn : (l.map Prod.fst).Nodup)
    (a b : String × γ) (ha : a ∈ l) (hb : b ∈ l) (hfst : a.1 = b.1) : a = b := by
  induction l with
  | nil => simp at ha
  | cons x t ih =>
    rw [List.map_cons, List.nodup_cons] at hn
    rcases List.mem_cons.mp ha with h1 | h1 <;> rcases List.mem_cons.mp hb with h2 | h2
    · rw [h1, h2]
    · subst h1
      exact absurd (hfst ▸ List.mem_map.mpr ⟨b, h2, rfl⟩) hn.1
    · subst h2
      exact absurd (hfst ▸ List.mem_map.mpr ⟨a, h1, rfl⟩) hn.1
    · exact ih hn.2 h1 h2

theorem uniPart_fst_nodup (entries : List (String × Lit))
    (hnodup : (entries.map Prod.fst).Nodup) : ((uniPart entries).map Prod.fst).Nodup := by
  have hperm := map_fst_parts_perm entries
  have hn2 := hperm.nodup_iff.mp hnodup
  rw [List.nodup_append] at hn2
  exact hn2.1

theorem buildPA_some (entries : List (String × Lit)) (k : List Nat) (g : List String)
    (hg : jsGet (buildPA entries) k = some g) : g = valsOf (uniPart entries) k := by
  have hchar := jsGet_pushFold_char (uniPart entries) k
  rw [show pushFold ([] : List (List Nat × List String)) (uniPart entries)
      = buildPA entries from rfl] at hchar
  rw [hg] at hchar
  by_cases hv : valsOf (uniPart entries) k = []
  · rw [if_pos hv] at hchar
    exact absurd hchar (by simp)
  · rw [if_neg hv] at hchar
    exact Option.some.inj hchar

theorem buildPA_none (entries : List (String × Lit)) (k : List Nat)
    (hg : jsGet (buildPA entries) k = none) : valsOf (uniPart entries) k = [] := by
  have hchar := jsGet_pushFold_char (uniPart entries) k
  rw [show pushFold ([] : List (List Nat × List String)) (uniPart entries)
      = buildPA entries from rfl] at hchar
  rw [hg] at hchar
  by_cases hv : valsOf (uniPart entries) k = []
  · exact hv
  · rw [if_neg hv] at hchar
    exact absurd hchar.symm (by simp)

theorem mem_valsOf_iff (entries : List (String × Lit)) (k : List Nat) (i : String)
    (hnodup : (entries.map Prod.fst).Nodup) (e : String × List Nat)
    (he : e ∈ uniPart entries) (hei : e.1 = i) :
    (i ∈ valsOf (uniPart entries) k ↔ e.2 = k) := by
  constructor
  · intro hi
    unfold valsOf at hi
    rw [List.mem_map] at hi
    obtain ⟨e2, he2, hee⟩ := hi
    rw [List.mem_filter] at he2
    have heq := nodup_fst_inj _ (uniPart_fst_nodup entries hnodup) e e2 he
      he2.1 (by rw [hei, ← hee])
    rw [heq]
    exact of_decide_eq_true he2.2
  · intro hk
    unfold valsOf
    rw [List.mem_map]
    exact ⟨e, List.mem_filter.mpr ⟨he, by simp [hk]⟩, hei⟩

theorem flatMap_filter_nonempty (sm : List (String × List (List String))) :
    (sm.filter fun q => !q.2.isEmpty).flatMap (fun q => q.2.flatten)
      = sm.flatMap fun q => q.2.flatten := by
  induction sm with
  | nil => simp
  | cons q sm2 ih =>
    by_cases hq : q.2.isEmpty
    · rw [List.filter_cons_of_neg (by simp [hq]), List.flatMap_cons, ih]
      rw [List.isEmpty_iff] at hq
      rw [hq]
      simp
    · rw [List.filter_cons_of_pos (by simp [hq])]
      rw [List.flatMap_cons, List.flatMap_cons, ih]

theorem taxIds_prune (t : TaxM) : taxIds (prune t) = taxIds t := by
  unfold prune taxIds
  induction t with
  | nil => simp
  | cons p t ih =>
    obtain ⟨c, sm⟩ := p
    simp only [List.map_cons]
    by_cases hsm : (sm.filter fun q => !q.2.isEmpty).isEmpty
    · rw [List.filter_cons_of_neg (by simp [hsm])]
      have hflat : sm.flatMap (fun q => q.2.flatten) = [] := by
        rw [List.isEmpty_iff] at hsm
        rw [List.filter_eq_nil_iff] at hsm
        rw [List.flatMap_eq_nil_iff]
        intro q hq
        have := hsm q hq
        simp at this
        rw [this]
        simp
      rw [List.flatMap_cons, hflat]
      simpa using ih
    · rw [List.filter_cons_of_pos (by simp [hsm])]
      rw [List.flatMap_cons, List.flatMap_cons]
      rw [flatMap_filter_nonempty, ih]

theorem catTitles_split (p q2 : List Rec) (t0 : String) :
    catTitles (p ++ Rec.category t0 :: q2)
      = catTitles p ++ toTitleCase t0 :: catTitles q2 := by
  unfold catTitles
  rw [List.filterMap_append]
  simp

theorem subTitles_split (p q2 : List Rec) (t0 : String) :
    subTitles (p ++ Rec.subcategory t0 :: q2)
      = subTitles p ++ toTitleCase t0 :: subTitles q2 := by
  unfold subTitles
  rw [List.filterMap_append]
  simp

theorem emojiKeys_split (p q2 : List Rec) (v : List Nat) :
    emojiKeys (p ++ Rec.emoji v :: q2)
      = emojiKeys p ++ stripKey v :: emojiKeys q2 := by
  unfold emojiKeys
  rw [List.filterMap_append]
  simp

theorem catTitles_snoc_cat (p : List Rec) (t0 : String) :
    catTitles (p ++ [Rec.category t0]) = catTitles p ++ [toTitleCase t0] := by
  unfold catTitles
  rw [List.filterMap_append]
  simp

theorem catTitles_snoc_sub (p : List Rec) (t0 : String) :
    catTitles (p ++ [Rec.subcategory t0]) = catTitles p := by
  unfold catTitles
  rw [List.filterMap_append]
  simp

theorem catTitles_snoc_emoji (p : List Rec) (v : List Nat) :
    catTitles (p ++ [Rec.emoji v]) = catTitles p := by
  unfold catTitles
  rw [List.filterMap_append]
  simp

theorem subTitles_snoc_cat (p : List Rec) (t0 : String) :
    subTitles (p ++ [Rec.category t0]) = subTitles p := by
  unfold subTitles
  rw [List.filterMap_append]
  simp

theorem subTitles_snoc_sub (p : List Rec) (t0 : String) :
    subTitles (p ++ [Rec.subcategory t0]) = subTitles p ++ [toTitleCase t0] := by
  unfold subTitles
  rw [List.filterMap_append]
  simp

theorem subTitles_snoc_emoji (p : List Rec) (v : List Nat) :
    subTitles (p ++ [Rec.emoji v]) = subTitles p := by
  unfold subTitles
  rw [List.filterMap_append]
  simp

theorem emojiKeys_snoc_cat (p : List Rec) (t0 : String) :
    emojiKeys (p ++ [Rec.category t0]) = emojiKeys p := by
  unfold emojiKeys
  rw [List.filterMap_append]
  simp

theorem emojiKeys_snoc_sub (p : List Rec) (t0 : String) :
    emojiKeys (p ++ [Rec.subcategory t0]) = emojiKeys p := by
  unfold emojiKeys
  rw [List.filterMap_append]
  simp

theorem emojiKeys_snoc_emoji (p : List Rec) (v : List Nat) :
    emojiKeys (p ++ [Rec.emoji v]) = emojiKeys p ++ [stripKey v] := by
  unfold emojiKeys
  rw [List.filterMap_append]
  simp

theorem walk_perm_inv (entries : List (String × Lit)) (rs : List Rec)
    (hnodup : (entries.map Prod.fst).Nodup)
    (hkeys : (emojiKeys rs).Nodup)
    (hcats : (catTitles rs).Nodup)
    (hsubs : (subTitles rs).Nodup) :
    ∀ q p σ, rs = p ++ q → WInv entries p σ →
      ∀ σf, walk (buildPA entries) σ q = Except.ok σf → WInv entries rs σf := by
  intro q
  induction q with
  | nil =>
    intro p σ hps hinv σf hw
    simp only [walk] at hw
    injection hw with h
    rw [← h, hps, List.append_nil]
    exact hinv
  | cons r q2 ih =>
    intro p σ hps hinv σf hw
    rw [walk_cons] at hw
    cases hst : walkStep (buildPA entries) σ r with
    | error e => rw [hst] at hw; exact absurd hw (by simp)
    | ok σ2 =>
      rw [hst] at hw
      refine ih (p ++ [r]) σ2 (by rw [hps]; simp) ?_ σf hw
      obtain ⟨hKC, hKS, hM, hR⟩ := hinv
      cases r with
      | category t0 =>
        simp only [walkStep] at hst
        injection hst with h2
        subst h2
        have htitle : toTitleCase t0 ∉ catTitles p := by
          rw [hps, catTitles_split] at hcats
          exact nodup_middle_not_mem _ _ _ hcats
        have hnotk : toTitleCase t0 ∉ keysOf σ.tax := fun hmem => htitle (hKC _ hmem)
        have hset : jsSet σ.tax (toTitleCase t0) [] = σ.tax ++ [(toTitleCase t0, [])] :=
          jsSet_of_not_mem _ _ _ hnotk
        refine ⟨?_, ?_, ?_, ?_⟩
        · intro c hc
          dsimp only at hc
          rw [hset] at hc
          unfold keysOf at hc
          rw [List.map_append, List.mem_append] at hc
          rw [catTitles_snoc_cat]
          rcases hc with h | h
          · exact List.mem_append_left _ (hKC c h)
          · simp only [List.map_cons, List.map_nil, List.mem_singleton] at h
            simp [h]
        · intro pp hpp s hs
          dsimp only at hpp
          rw [hset, List.mem_append] at hpp
          rw [subTitles_snoc_cat]
          rcases hpp with h | h
          · exact hKS pp h s hs
          · rw [List.mem_singleton] at h
            rw [h] at hs
            simp [keysOf] at hs
        · dsimp only
          rw [hset]
          unfold taxIds
          rw [List.flatMap_append]
          simpa using hM
        · dsimp only
          rw [emojiKeys_snoc_cat]
          exact hR
      | subcategory t0 =>
        simp only [walkStep] at hst
        split at hst
        · exact absurd hst (by simp)
        · rename_i sm heq
          injection hst with h2
          subst h2
          have hmemtax := jsGet_mem _ _ _ heq
          have htitle : toTitleCase t0 ∉ subTitles p := by
            rw [hps, subTitles_split] at hsubs
            exact nodup_middle_not_mem _ _ _ hsubs
          have hnotk : toTitleCase t0 ∉ keysOf sm := fun hmem =>
            htitle (hKS _ hmemtax _ hmem)
          have hset : jsSet sm (toTitleCase t0) [] = sm ++ [(toTitleCase t0, [])] :=
            jsSet_of_not_mem _ _ _ hnotk
          have hckey := jsGet_key_mem _ _ _ heq
          refine ⟨?_, ?_, ?_, ?_⟩
          · intro c hc
            dsimp only at hc
            rw [keysOf_jsSet, if_pos hckey] at hc
            rw [catTitles_snoc_sub]
            exact hKC c hc
          · intro pp hpp s hs
            dsimp only at hpp
            rw [subTitles_snoc_sub]
            rcases mem_jsSet _ _ _ pp hpp with h | h
            · rw [h] at hs
              dsimp only at hs
              rw [hset] at hs
              unfold keysOf at hs
              rw [List.map_append, List.mem_append] at hs
              rcases hs with h3 | h3
              · exact List.mem_append_left _ (hKS _ hmemtax s h3)
              · simp only [List.map_cons, List.map_nil, List.mem_singleton] at h3
                simp [h3]
            · exact List.mem_append_left _ (hKS pp h s hs)
          · dsimp only
            have hperm := flatMap_jsSet_perm σ.tax
              ((((if σ.stack.length > 1 then σ.stack.dropLast else σ.stack)
                ++ [toTitleCase t0]).get? 0).getD "undefined")
              sm (jsSet sm (toTitleCase t0) [])
              (fun sm2 => sm2.flatMap fun q => q.2.flatten) heq
            dsimp only at hperm
            have hfx : (jsSet sm (toTitleCase t0) []).flatMap (fun q => q.2.flatten)
                = sm.flatMap fun q => q.2.flatten := by
              rw [hset, List.flatMap_append]
              simp
            have hml := Multiset.coe_eq_coe.mpr hperm
            rw [← Multiset.coe_add, ← Multiset.coe_add, hfx] at hml
            have hcancel := add_right_cancel
              (hml.trans (add_comm _ _))
            unfold taxIds
            rw [hcancel]
            exact hM
          · dsimp only
            rw [emojiKeys_snoc_sub]
            exact hR
      | emoji v =>
        simp only [walkStep] at hst
        split at hst
        · rename_i hg
          injection hst with h2
          subst h2
          have hval := buildPA_none entries (stripKey v) hg
          refine ⟨?_, ?_, ?_, ?_⟩
          · intro c hc
            rw [catTitles_snoc_emoji]
            exact hKC c hc
          · intro pp hpp s hs
            rw [subTitles_snoc_emoji]
            exact hKS pp hpp s hs
          · exact hM
          · rw [emojiKeys_snoc_emoji, hR]
            apply List.filter_congr
            intro e he
            have hek : e.2 ≠ stripKey v := by
              intro hh
              have : e.1 ∈ valsOf (uniPart entries) (stripKey v) := by
                unfold valsOf
                rw [List.mem_map]
                exact ⟨e, List.mem_filter.mpr ⟨he, by simp [hh]⟩, rfl⟩
              rw [hval] at this
              simp at this
            rw [decide_eq_decide]
            constructor
            · intro h1 h2
              rw [List.mem_append] at h2
              rcases h2 with h3 | h3
              · exact h1 h3
              · rw [List.mem_singleton] at h3
                exact hek h3
            · intro h1 h2
              exact h1 (List.mem_append_left _ h2)
        · rename_i g hg
          split at hst
          · exact absurd hst (by simp)
          · rename_i sm hsm
            split at hst
            · exact absurd hst (by simp)
            · rename_i lst hlst
              injection hst with h2
              subst h2
              have hgv : g = valsOf (uniPart entries) (stripKey v) :=
                buildPA_some _ _ _ hg
              have hkey_not : stripKey v ∉ emojiKeys p := by
                rw [hps, emojiKeys_split] at hkeys
                exact nodup_middle_not_mem _ _ _ hkeys
              have hckey := jsGet_key_mem _ _ _ hsm
              have hskey := jsGet_key_mem _ _ _ hlst
              have hmemg : ∀ e ∈ uniPart entries, (e.1 ∈ g ↔ e.2 = stripKey v) := by
                intro e he
                rw [hgv]
                exact mem_valsOf_iff entries _ e.1 hnodup e he rfl
              have hA : (σ.rem.filter fun e => !decide (e.1 ∉ g)).map Prod.fst = g := by
                rw [hR, List.filter_filter]
                have hcng : ∀ e ∈ uniPart entries,
                    ((!decide (e.1 ∉ g)) && decide (e.2 ∉ emojiKeys p))
                      = decide (e.2 = stripKey v) := by
                  intro e he
                  by_cases hek : e.2 = stripKey v
                  · have h1 : e.1 ∈ g := (hmemg e he).mpr hek
                    simp [h1, hek, hkey_not]
                  · have h1 : e.1 ∉ g := fun hh => hek ((hmemg e he).mp hh)
                    simp [h1, hek]
                rw [List.filter_congr hcng]
                rw [hgv]
                rfl
              refine ⟨?_, ?_, ?_, ?_⟩
              · intro c hc
                dsimp only at hc
                rw [keysOf_jsSet, if_pos hckey] at hc
                rw [catTitles_snoc_emoji]
                exact hKC c hc
              · intro pp hpp s hs
                dsimp only at hpp
                rw [subTitles_snoc_emoji]
                rcases mem_jsSet _ _ _ pp hpp with h | h
                · rw [h] at hs
                  dsimp only at hs
                  rw [keysOf_jsSet, if_pos hskey] at hs
                  exact hKS _ (jsGet_mem _ _ _ hsm) s hs
                · exact hKS pp h s hs
              · dsimp only
                have houter := flatMap_jsSet_perm σ.tax
                  ((σ.stack.get? 0).getD "undefined") sm
                  (jsSet sm ((σ.stack.get? 1).getD "undefined") (lst ++ [g]))
                  (fun sm2 => sm2.flatMap fun q => q.2.flatten) hsm
                have hinner := flatMap_jsSet_perm sm
                  ((σ.stack.get? 1).getD "undefined") lst (lst ++ [g])
                  (fun l2 => l2.flatten) hlst
                dsimp only at houter hinner
                have hflatten : (lst ++ [g]).flatten = lst.flatten ++ g := by
                  rw [List.flatten_append]
                  simp
                have hmli := Multiset.coe_eq_coe.mpr hinner
                rw [← Multiset.coe_add, ← Multiset.coe_add, hflatten,
                  ← Multiset.coe_add] at hmli
                have hFX : (((jsSet sm ((σ.stack.get? 1).getD "undefined")
                    (lst ++ [g])).flatMap fun q => q.2.flatten : List String) : Multiset String)
                    = (g : Multiset String)
                      + ((sm.flatMap fun q => q.2.flatten : List String) : Multiset String) := by
                  have h2 : ((lst.flatten : List String) : Multiset String)
                      + (((jsSet sm ((σ.stack.get? 1).getD "undefined")
                          (lst ++ [g])).flatMap fun q => q.2.flatten : List String) : Multiset String)
                      = ((lst.flatten : List String) : Multiset String)
                        + ((g : Multiset String)
                          + ((sm.flatMap fun q => q.2.flatten : List String) : Multiset String)) := by
                    rw [add_comm ((lst.flatten : List String) : Multiset String), hmli]
                    abel
                  exact add_left_cancel h2
                have hmlo := Multiset.coe_eq_coe.mpr houter
                rw [← Multiset.coe_add, ← Multiset.coe_add, hFX] at hmlo
                have hT2 : (((jsSet σ.tax ((σ.stack.get? 0).getD "undefined")
                    (jsSet sm ((σ.stack.get? 1).getD "undefined") (lst ++ [g]))).flatMap
                      fun p => p.2.flatMap fun q => q.2.flatten : List String) : Multiset String)
                    = (g : Multiset String)
                      + ((σ.tax.flatMap fun p => p.2.flatMap fun q => q.2.flatten :
                          List String) : Multiset String) := by
                  have h2 : ((sm.flatMap fun q => q.2.flatten : List String) : Multiset String)
                      + (((jsSet σ.tax ((σ.stack.get? 0).getD "undefined")
                          (jsSet sm ((σ.stack.get? 1).getD "undefined") (lst ++ [g]))).flatMap
                            fun p => p.2.flatMap fun q => q.2.flatten : List String) : Multiset String)
                      = ((sm.flatMap fun q => q.2.flatten : List String) : Multiset String)
                        + ((g : Multiset String)
                          + ((σ.tax.flatMap fun p => p.2.flatMap fun q => q.2.flatten :
                              List String) : Multiset String)) := by
                    rw [add_comm ((sm.flatMap fun q => q.2.flatten : List String) :
                      Multiset String), hmlo]
                    abel
                  exact add_left_cancel h2
                have hremsp := (List.filter_append_perm
                  (fun e => decide (e.1 ∉ g)) σ.rem).map Prod.fst
                have hrem2 := Multiset.coe_eq_coe.mpr hremsp
                rw [List.map_append, ← Multiset.coe_add, hA] at hrem2
                unfold taxIds at hM ⊢
                rw [hT2]
                have hfin : ((g : Multiset String)
                    + ((σ.tax.flatMap fun p => p.2.flatMap fun q => q.2.flatten :
                        List String) : Multiset String))
                    + (((σ.rem.filter fun p => decide (p.1 ∉ g)).map Prod.fst :
                        List String) : Multiset String)
                    = ((σ.tax.flatMap fun p => p.2.flatMap fun q => q.2.flatten :
                        List String) : Multiset String)
                      + ((((σ.rem.filter fun p => decide (p.1 ∉ g)).map Prod.fst :
                          List String) : Multiset String) + (g : Multiset String)) := by
                  abel
                rw [hfin, hrem2]
                exact hM
              · dsimp only
                rw [emojiKeys_snoc_emoji, hR, List.filter_filter]
                apply List.filter_congr
                intro e he
                by_cases hek : e.2 = stripKey v
                · have h1 : e.1 ∈ g := (hmemg e he).mpr hek
                  simp [h1, hek]
                · have h1 : e.1 ∉ g := fun hh => hek ((hmemg e he).mp hh)
                  simp [h1, hek]

theorem taxIds_append (t1 t2 : TaxM) : taxIds (t1 ++ t2) = taxIds t1 ++ taxIds t2 := by
  unfold taxIds
  rw [List.flatMap_append]

theorem taxIds_single (c : String) (sm : List (String × List (List String))) :
    taxIds [(c, sm)] = sm.flatMap fun q => q.2.flatten := by
  simp [taxIds]

/-- C1, counterexample: the multiset of identifiers in the output is NOT
always the multiset of input identifiers each exactly once — a record
stream may repeat a normalized emoji key, and the matching group is then
appended at every occurrence (the key is never removed from partition (a)),
so a single input identifier appears twice in the output while `categorize`
still succeeds. -/
theorem C1_counterexample :
    categorize [("a", Lit.uni [0x263A])]
      [Rec.category "c", Rec.subcategory "s", Rec.emoji [0x263A], Rec.emoji [0x263A]]
      = Except.ok [("C", [("S", [["a"], ["a"]])])] ∧
    ¬ List.Perm (taxIds [("C", [("S", [["a"], ["a"]])])])
      ([("a", Lit.uni [0x263A])].map Prod.fst) :=
  ⟨rfl, by decide⟩

/-- C1, amended: under the provisos that the input identifiers are
pairwise distinct, the normalized emoji keys of the record stream are
pairwise distinct, the title-cased category and subcategory titles are
pairwise distinct, and no category title is the reserved name
"GitHub Custom Emoji", a successful run of `categorize` returns a taxonomy
whose identifiers (across all identifier groups, including the synthetic
platform-specific category) are a permutation of the input identifiers —
so each input identifier appears exactly once. -/
theorem C1_amended (entries : List (String × Lit)) (rs : List Rec) (t : TaxM)
    (hnodup : (entries.map Prod.fst).Nodup)
    (hkeys : (emojiKeys rs).Nodup)
    (hcats : (catTitles rs).Nodup)
    (hsubs : (subTitles rs).Nodup)
    (hGCE : "GitHub Custom Emoji" ∉ catTitles rs)
    (hok : categorize entries rs = Except.ok t) :
    List.Perm (taxIds t) (entries.map Prod.fst) ∧ (taxIds t).Nodup := by
  cases hw : walk (buildPA entries) ⟨[], [], uniPart entries⟩ rs with
  | error e =>
    rw [categorize_of_walk_error entries rs e hw] at hok
    exact absurd hok (by simp)
  | ok σf =>
    rw [categorize_of_walk_ok entries rs σf hw] at hok
    have hinv0 : WInv entries [] ⟨[], [], uniPart entries⟩ := by
      refine ⟨?_, ?_, ?_, ?_⟩
      · intro c hc
        simp [keysOf] at hc
      · intro pp hpp
        simp at hpp
      · simp [taxIds]
      · dsimp only
        symm
        rw [List.filter_eq_self]
        intro e he
        simp [emojiKeys]
    have hinvf := walk_perm_inv entries rs hnodup hkeys hcats hsubs rs []
      ⟨[], [], uniPart entries⟩ (by simp) hinv0 σf hw
    obtain ⟨hKC, _, hM, _⟩ := hinvf
    by_cases hre : σf.rem.isEmpty
    · rw [if_pos hre] at hok
      have hrnil : σf.rem = [] := List.isEmpty_iff.mp hre
      have hu : List.Perm (taxIds σf.tax) ((uniPart entries).map Prod.fst) := by
        rw [hrnil] at hM
        simpa using hM
      by_cases hpb : (buildPB entries).isEmpty
      · rw [if_pos hpb] at hok
        injection hok with ht
        have hcust : customPart entries = [] := by
          rw [List.isEmpty_iff] at hpb
          exact ((pushFold_eq_nil (customPart entries) []).mp hpb).2
        have hperm0 : List.Perm (entries.map Prod.fst) ((uniPart entries).map Prod.fst) := by
          have h1 := map_fst_parts_perm entries
          rwa [hcust, List.map_nil, List.append_nil] at h1
        have hperm : List.Perm (taxIds t) (entries.map Prod.fst) := by
          rw [← ht, taxIds_prune]
          exact hu.trans hperm0.symm
        exact ⟨hperm, hperm.nodup_iff.mpr hnodup⟩
      · rw [if_neg hpb] at hok
        injection hok with ht
        have hnot : "GitHub Custom Emoji" ∉ keysOf (prune σf.tax) := fun hmem =>
          hGCE (hKC _ (keysOf_prune_subset _ _ hmem))
        have hset : jsSet (prune σf.tax) "GitHub Custom Emoji"
            [("", (jsEntriesOrder (buildPB entries)).map Prod.snd)]
            = prune σf.tax ++ [("GitHub Custom Emoji",
                [("", (jsEntriesOrder (buildPB entries)).map Prod.snd)])] :=
          jsSet_of_not_mem _ _ _ hnot
        have htax : taxIds t = taxIds σf.tax
            ++ ((jsEntriesOrder (buildPB entries)).map Prod.snd).flatten := by
          rw [← ht, hset, taxIds_append, taxIds_prune, taxIds_single]
          simp
        have hG2 : List.Perm ((jsEntriesOrder (buildPB entries)).map Prod.snd).flatten
            ((customPart entries).map Prod.fst) := by
          refine List.Perm.trans (((jsEntriesOrder_perm _).map _).flatten) ?_
          rw [← List.flatMap_def]
          unfold buildPB
          have h4 := flatMap_pushFold_perm (customPart entries) []
          simpa using h4
        have hperm : List.Perm (taxIds t) (entries.map Prod.fst) := by
          rw [htax]
          exact (hu.append hG2).trans (map_fst_parts_perm entries).symm
        exact ⟨hperm, hperm.nodup_iff.mpr hnodup⟩
    · rw [if_neg hre] at hok
      exact absurd hok (by simp)

/-- C1, amended, at a concrete input: one Unicode-literal identifier and
one platform-specific identifier; the output holds each input identifier
exactly once. -/
theorem C1_amended_witness :
    List.Perm
      (taxIds [("C", [("S", [["a"]])]), ("GitHub Custom Emoji", [("", [["b"]])])])
      ([("a", Lit.uni [65]), ("b", Lit.custom "octo")].map Prod.fst) ∧
    (taxIds [("C", [("S", [["a"]])]), ("GitHub Custom Emoji", [("", [["b"]])])]).Nodup :=
  C1_amended [("a", Lit.uni [65]), ("b", Lit.custom "octo")]
    [Rec.category "c", Rec.subcategory "s", Rec.emoji [65]]
    [("C", [("S", [["a"]])]), ("GitHub Custom Emoji", [("", [["b"]])])]
    (by decide) (by decide) (by decide) (by decide) (by decide) rfl

end Fetch
